import Mathlib

/-!
Shallow embedding of `chaoslib/secret.py` (chaostoolkit-lib).

Python values that occur in the secrets machinery are modelled by `Val`
(None, strings, and string-keyed dicts).  Python dicts are modelled by
association lists in insertion order; assignment `d[k] = v` replaces the
value in place when the key is present and appends otherwise (`aset`),
`d.pop(k)` removes the entry (`apop`), and `d.get` / `in` / subscript have
their Python semantics, raising modelled exceptions where CPython would
(`PyErr`).  The process environment, the availability of the `hvac`
package, and the external Vault store are modelled by an explicit `World`.
-/

namespace ChaosSecret

/-- Python values handled by the secrets module: `None`, strings and
string-keyed dictionaries. -/
inductive Val where
  | none
  | str (s : String)
  | dict (entries : List (String × Val))

/-- Modelled Python exceptions raised by the code under study. -/
inductive PyErr where
  | invalidExperiment (msg : String)
  | keyError (key : String)
  | typeError
  | attributeError
deriving DecidableEq

/-- Dict lookup (first, and in a real dict only, binding of a key). -/
def alook {α : Type} (l : List (String × α)) (k : String) : Option α :=
  match l with
  | [] => Option.none
  | (k', v) :: rest => if k' = k then some v else alook rest k

/-- Python `d[k] = v`: replace in place when present, append otherwise. -/
def aset {α : Type} (l : List (String × α)) (k : String) (v : α) :
    List (String × α) :=
  match l with
  | [] => [(k, v)]
  | (k', v') :: rest => if k' = k then (k, v) :: rest else (k', v') :: aset rest k v

/-- Python `d.pop(k)`: remove the binding of `k`. -/
def apop {α : Type} (l : List (String × α)) (k : String) : List (String × α) :=
  match l with
  | [] => []
  | (k', v') :: rest => if k' = k then rest else (k', v') :: apop rest k

/-- Python `k in d` for a dict with string keys. -/
def ahas {α : Type} (l : List (String × α)) (k : String) : Bool :=
  match l with
  | [] => false
  | (k', _) :: rest => if k' = k then true else ahas rest k

/-- `d.get(k)` on a value already known to be a dict (default `None`). -/
def dget (d : List (String × Val)) (k : String) : Val :=
  match alook d k with
  | some v => v
  | Option.none => Val.none

/-- `d.get(k, dflt)` on a value already known to be a dict. -/
def dgetD (d : List (String × Val)) (k : String) (dflt : Val) : Val :=
  match alook d k with
  | some v => v
  | Option.none => dflt

/-- Python `v == "s"` for a string literal on the right: only equal when
`v` is that very string. -/
def Val.eqStr (v : Val) (s : String) : Bool :=
  match v with
  | .str t => t == s
  | _ => false

/-- Python truth value of a `Val` is false exactly for `None`, `""`, `{}`. -/
def falsy (v : Val) : Bool :=
  match v with
  | .none => true
  | .str s => s == ""
  | .dict d => d.isEmpty

/-- `v.get(k, dflt)` on an arbitrary value: non-dicts have no `get`
attribute. -/
def pyGet (v : Val) (k : String) (dflt : Val) : Except PyErr Val :=
  match v with
  | .dict d => .ok (dgetD d k dflt)
  | _ => .error .attributeError

/-- Subscript `v[k]` with a string key: `KeyError` when absent,
`TypeError` on non-dicts. -/
def pySub (v : Val) (k : String) : Except PyErr Val :=
  match v with
  | .dict d =>
    match alook d k with
    | some r => .ok r
    | Option.none => .error (.keyError k)
  | _ => .error .typeError

/-- Membership `x in container`.  Dict containers test key membership
(dict keys here are strings, so a dict probe is unhashable and `None`
is simply absent); string containers test for a substring. -/
def strStarts : List Char → List Char → Bool
  | [], _ => true
  | _ :: _, [] => false
  | a :: as, b :: bs => a == b && strStarts as bs

def strSubAt (needle : List Char) : List Char → Bool
  | [] => needle.isEmpty
  | c :: t => strStarts needle (c :: t) || strSubAt needle t

def pyMem (x : Val) (container : Val) : Except PyErr Bool :=
  match container with
  | .dict d =>
    match x with
    | .str s => .ok (ahas d s)
    | .none => .ok false
    | .dict _ => .error .typeError
  | .str s =>
    match x with
    | .str n => .ok (strSubAt n.data s.data)
    | _ => .error .typeError
  | .none => .error .typeError

/-- `v.get(key)` where the key itself is a Python value. -/
def pyGetV (v : Val) (key : Val) : Except PyErr Val :=
  match v with
  | .dict d =>
    match key with
    | .str s => .ok (dget d s)
    | .none => .ok Val.none
    | .dict _ => .error .typeError
  | _ => .error .attributeError

mutual
/-- Python `repr` of a modelled value. -/
def pyRepr : Val → String
  | .none => "None"
  | .str s => "'" ++ s ++ "'"
  | .dict l => "\x7b" ++ pyReprEntries l ++ "\x7d"

def pyReprEntries : List (String × Val) → String
  | [] => ""
  | (k, v) :: rest =>
    match rest with
    | [] => "'" ++ k ++ "': " ++ pyRepr v
    | _ :: _ => "'" ++ k ++ "': " ++ pyRepr v ++ ", " ++ pyReprEntries rest
end

/-- Python `str` of a modelled value (used by `str(...)` and
`"...".format(...)`). -/
def pyStr (v : Val) : String :=
  match v with
  | .none => "None"
  | .str s => s
  | .dict l => pyRepr (.dict l)

/-- One target's secrets dict. -/
abbrev SecretVals := List (String × Val)

/-- The secrets specification / result shape: target name to dict. -/
abbrev Secrets := List (String × SecretVals)

abbrev SecretsInfo := Secrets

/-- The experiment configuration dict. -/
abbrev Configuration := List (String × Val)

/-- The hvac client as used by the module: bound address, default KV
version of `client.secrets.kv`, and the auth token. -/
structure VaultClient where
  url : Val
  default_kv_version : String
  token : Val

/-- External collaborators of the module: the process environment,
whether the `hvac` package imported, the store's KV read endpoints and
its AppRole auth endpoint. -/
structure World where
  env : List (String × String)
  hasHvac : Bool
  readV1 : Val → Val
  readV2 : Val → Val
  authApprole : Val → Val → Except String Val

/-- `create_vault_client(configuration)`: `None` without hvac; otherwise
bind the address, set the default KV version (default `"2"`), then
authenticate by static token, else by AppRole exchange (failures of the
exchange are wrapped in `InvalidExperiment`), else not at all. -/
def create_vault_client (w : World) (configuration : Configuration) :
    Except PyErr (Option VaultClient) :=
  if w.hasHvac then
    let url := dget configuration "vault_addr"
    let client : VaultClient :=
      { url := url
        default_kv_version := pyStr (dgetD configuration "vault_kv_version" (Val.str "2"))
        token := Val.none }
    if ahas configuration "vault_token" then
      .ok (some { client with token := dget configuration "vault_token" })
    else if ahas configuration "vault_role_id" && ahas configuration "vault_role_secret" then
      let role_id := dget configuration "vault_role_id"
      let role_secret := dget configuration "vault_role_secret"
      match w.authApprole role_id role_secret with
      | .error ve =>
        .error (.invalidExperiment
          ("Failed to connect to Vault with the AppRole: " ++ ve))
      | .ok app_role =>
        match pySub app_role "auth" with
        | .error e => .error e
        | .ok auth =>
          match pySub auth "client_token" with
          | .error e => .error e
          | .ok tok => .ok (some { client with token := tok })
    else
      .ok (some client)
  else
    .ok Option.none

/-- Body of the inner loop of `load_inline_secrets`: keep a value iff it
is not a dict, or is a dict whose `type` is neither `"env"` nor
`"vault"`. -/
def inlineKeeps (value : Val) : Bool :=
  match value with
  | Val.dict d => !(Val.eqStr (dget d "type") "env" || Val.eqStr (dget d "type") "vault")
  | _ => true

def inlineKeys (acc : SecretVals) : List (String × Val) → SecretVals
  | [] => acc
  | (key, value) :: rest =>
    inlineKeys (if inlineKeeps value then aset acc key value else acc) rest

def inlineTargets (acc : Secrets) : SecretsInfo → Secrets
  | [] => acc
  | (target, keys) :: rest =>
    let d := inlineKeys [] keys
    inlineTargets (if d.isEmpty then apop acc target else aset acc target d) rest

/-- `load_inline_secrets(secrets_info, configuration)`. -/
def load_inline_secrets (secrets_info : SecretsInfo)
    (_configuration : Configuration) : Secrets :=
  inlineTargets [] secrets_info

/-- Processing of a single entry by `load_secrets_from_env`: `Option.none`
when the entry is not an env reference, otherwise the resolved value or
the raised exception. -/
def envEntry (w : World) (value : Val) : Except PyErr (Option Val) :=
  match value with
  | Val.dict d =>
    if Val.eqStr (dget d "type") "env" then
      match alook d "key" with
      | Option.none => .error (.keyError "key")
      | some env_key =>
        match env_key with
        | Val.str s =>
          match alook w.env s with
          | Option.none =>
            .error (.invalidExperiment
              ("Secrets make reference to an environment key "
                ++ "that does not exist: " ++ pyStr env_key))
          | some v => .ok (some (Val.str v))
        | _ => .error .typeError
    else .ok Option.none
  | _ => .ok Option.none

def envKeys (w : World) (acc : SecretVals) :
    List (String × Val) → Except PyErr SecretVals
  | [] => .ok acc
  | (key, value) :: rest =>
    match envEntry w value with
    | .error e => .error e
    | .ok Option.none => envKeys w acc rest
    | .ok (some v) => envKeys w (aset acc key v) rest

def envTargets (w : World) (acc : Secrets) : SecretsInfo → Except PyErr Secrets
  | [] => .ok acc
  | (target, keys) :: rest =>
    match envKeys w [] keys with
    | .error e => .error e
    | .ok d =>
      envTargets w (if d.isEmpty then apop acc target else aset acc target d) rest

/-- `load_secrets_from_env(secrets_info, configuration)`. -/
def load_secrets_from_env (w : World) (secrets_info : SecretsInfo)
    (_configuration : Configuration) : Except PyErr Secrets :=
  envTargets w [] secrets_info

/-- Outcome of one entry in the Vault loader's inner loop. -/
inductive VaultOutcome where
  | notVault
  | skip
  | abort
  | put (v : Val)

/-- The part of the Vault loop body after the path check: read the
secret under the client's KV version, unwrap the `data` layer(s), and
extract the named key or the whole payload. -/
def vaultFetch (w : World) (c : VaultClient) (d : List (String × Val))
    (path : Val) : Except PyErr VaultOutcome :=
  let is_kv1 := c.default_kv_version == "1"
  let vault_payload := if is_kv1 then w.readV1 path else w.readV2 path
  if falsy vault_payload then .ok .skip
  else
    match
      (if is_kv1 then pyGet vault_payload "data" Val.none
       else
         match pyGet vault_payload "data" (Val.dict []) with
         | .error e => .error e
         | .ok d1 => pyGet d1 "data" Val.none) with
    | .error e => .error e
    | .ok data =>
      if ahas d "key" then
        match pySub (Val.dict d) "key" with
        | .error e => .error e
        | .ok vault_key =>
          match pyMem vault_key data with
          | .error e => .error e
          | .ok b =>
            if b then
              match pyGetV data vault_key with
              | .error e => .error e
              | .ok v => .ok (.put v)
            else .ok .skip
      else .ok (.put data)

/-- Processing of a single entry by `load_secrets_from_vault`: mirror of
the body of the inner loop, including the `HAS_HVAC` early return
(`abort`) and the three `continue` branches (`skip`). -/
def vaultEntry (w : World) (client : Option VaultClient) (value : Val) :
    Except PyErr VaultOutcome :=
  match value with
  | Val.dict d =>
    if Val.eqStr (dget d "type") "vault" then
      if !w.hasHvac then .ok .abort
      else
        match dget d "path" with
        | Val.none => .ok .skip
        | path =>
          match client with
          | Option.none => .error .attributeError
          | some c => vaultFetch w c d path
    else .ok .notVault
  | _ => .ok .notVault

def vaultKeys (w : World) (client : Option VaultClient) (acc : SecretVals) :
    List (String × Val) → Except PyErr (Option SecretVals)
  | [] => .ok (some acc)
  | (key, value) :: rest =>
    match vaultEntry w client value with
    | .error e => .error e
    | .ok .notVault => vaultKeys w client acc rest
    | .ok .skip => vaultKeys w client acc rest
    | .ok .abort => .ok Option.none
    | .ok (.put v) => vaultKeys w client (aset acc key v) rest

def vaultTargets (w : World) (client : Option VaultClient) (acc : Secrets) :
    SecretsInfo → Except PyErr (Option Secrets)
  | [] => .ok (some acc)
  | (target, keys) :: rest =>
    match vaultKeys w client [] keys with
    | .error e => .error e
    | .ok Option.none => .ok Option.none
    | .ok (some d) =>
      vaultTargets w client (if d.isEmpty then apop acc target else aset acc target d) rest

/-- `load_secrets_from_vault(secrets_info, configuration)`: the `Option`
returned by `vaultTargets` distinguishes the mid-loop `return {}` taken
when hvac is missing. -/
def load_secrets_from_vault (w : World) (secrets_info : SecretsInfo)
    (configuration : Configuration) : Except PyErr Secrets :=
  match create_vault_client w configuration with
  | .error e => .error e
  | .ok client =>
    match vaultTargets w client [] secrets_info with
    | .error e => .error e
    | .ok Option.none => .ok []
    | .ok (some s) => .ok s

/-- `secrets[key].update(value)` after `secrets.setdefault(key, {})`
style insertion: fold Python dict assignment over the update. -/
def updateD (cur : SecretVals) : SecretVals → SecretVals
  | [] => cur
  | (k, v) :: rest => updateD (aset cur k v) rest

/-- Merge one loader's partial result into the accumulated secrets, as
the body of the orchestration loop of `load_secrets` does. -/
def mergeOne (secrets : Secrets) : Secrets → Secrets
  | [] => secrets
  | (key, value) :: rest =>
    let cur :=
      match alook secrets key with
      | some d => d
      | Option.none => []
    mergeOne (aset secrets key (updateD cur value)) rest

/-- `load_secrets(secrets_info, configuration)`: run the inline, env and
vault loaders in that order, merging each partial result as it arrives;
a loader's exception propagates. -/
def load_secrets (w : World) (secrets_info : SecretsInfo)
    (configuration : Configuration) : Except PyErr Secrets :=
  let s1 := mergeOne [] (load_inline_secrets secrets_info configuration)
  match load_secrets_from_env w secrets_info configuration with
  | .error e => .error e
  | .ok r2 =>
    let s2 := mergeOne s1 r2
    match load_secrets_from_vault w secrets_info configuration with
    | .error e => .error e
    | .ok r3 => .ok (mergeOne s2 r3)

/-- Nested lookup into a secrets map. -/
def lookup2 (s : Secrets) (t k : String) : Option Val :=
  match alook s t with
  | some d => alook d k
  | Option.none => Option.none

/-- Last binding of a key in an association list. -/
def lookLast {α : Type} (l : List (String × α)) (k : String) : Option α :=
  match l with
  | [] => Option.none
  | (k', v) :: rest =>
    match lookLast rest k with
    | some r => some r
    | Option.none => if k' = k then some v else Option.none

/-- Key uniqueness of an association list (what makes it a Python dict). -/
def nodupKeys {α : Type} (l : List (String × α)) : Bool :=
  match l with
  | [] => true
  | (k, _) :: rest => !ahas rest k && nodupKeys rest

/-- Both levels of a secrets map have unique keys, as Python dicts do. -/
def goodSecrets (s : Secrets) : Bool :=
  nodupKeys s && s.all (fun p => nodupKeys p.2)

/-- The value is a dict tagged `type: env`. -/
def isEnvRef (v : Val) : Bool :=
  match v with
  | Val.dict d => Val.eqStr (dget d "type") "env"
  | _ => false

/-- The value is a dict tagged `type: vault`. -/
def isVaultRef (v : Val) : Bool :=
  match v with
  | Val.dict d => Val.eqStr (dget d "type") "vault"
  | _ => false

/-- A value the Environment resolver handles without raising: non-env
values trivially, env references whose `key` field is a string naming a
present environment variable. -/
def envRefOk (w : World) (v : Val) : Bool :=
  if isEnvRef v then
    match v with
    | Val.dict d =>
      match alook d "key" with
      | some (Val.str s) => ahas w.env s
      | _ => false
    | _ => false
  else true

/-- Every entry of the spec except the one at `(t, k)` resolves in the
Environment resolver without raising. -/
def allEnvOkExcept (w : World) (t k : String) (info : SecretsInfo) : Bool :=
  info.all (fun p => p.2.all (fun q => (p.1 == t && q.1 == k) || envRefOk w q.2))

/-- Every entry of the spec resolves in the Environment resolver. -/
def allEnvOk (w : World) (info : SecretsInfo) : Bool :=
  info.all (fun p => p.2.all (fun q => envRefOk w q.2))

/-- Some entry of the spec is a vault-tagged reference. -/
def containsVaultRef (info : SecretsInfo) : Bool :=
  info.any (fun p => p.2.any (fun q => isVaultRef q.2))

/-- Every value of the spec passes through the Inline resolver, i.e. none
is env- or vault-tagged. -/
def allKeeps (info : SecretsInfo) : Bool :=
  info.all (fun p => p.2.all (fun q => inlineKeeps q.2))

/-- Every target of the spec declares at least one secret. -/
def nonEmptyTargets (info : SecretsInfo) : Bool :=
  info.all (fun p => !p.2.isEmpty)

/-- The last two per-entry skip conditions of the Store resolver, for an
entry whose path is present: a falsy payload, or a named key absent from
the extracted payload data. -/
def vaultSkipsFetch (w : World) (c : VaultClient) (rd : List (String × Val))
    (path : Val) : Bool :=
  let is_kv1 := c.default_kv_version == "1"
  let vault_payload := if is_kv1 then w.readV1 path else w.readV2 path
  if falsy vault_payload then true
  else
    match
      (if is_kv1 then pyGet vault_payload "data" Val.none
       else
         match pyGet vault_payload "data" (Val.dict []) with
         | .error e => .error e
         | .ok d1 => pyGet d1 "data" Val.none) with
    | .ok data =>
      match alook rd "key" with
      | some vault_key =>
        match pyMem vault_key data with
        | .ok b => !b
        | .error _ => false
      | Option.none => false
    | .error _ => false

/-- The three per-entry skip conditions of the Store resolver for a
vault-tagged dict `rd`: missing path, falsy payload, or named key absent
from the extracted payload data. -/
def vaultSkips (w : World) (c : VaultClient) (rd : List (String × Val)) : Bool :=
  match dget rd "path" with
  | Val.none => true
  | path => vaultSkipsFetch w c rd path

/-- A concrete world for witnesses: one environment variable, hvac
available, a store with one secret at `foo/bar` under both KV schema
versions, and a failing AppRole endpoint. -/
def wA : World :=
  { env := [("MYVAR", "hello")]
    hasHvac := true
    readV1 := fun p =>
      match p with
      | Val.str "foo/bar" => Val.dict [("data", Val.dict [("pw", Val.str "shhh")])]
      | _ => Val.none
    readV2 := fun p =>
      match p with
      | Val.str "foo/bar" =>
          Val.dict [("data", Val.dict [("data", Val.dict [("pw", Val.str "shhh")])])]
      | _ => Val.none
    authApprole := fun _ _ => .error "boom" }

/-- The same world without the hvac package. -/
def wB : World := { wA with hasHvac := false }

/-- The same world with a succeeding AppRole exchange. -/
def wC : World :=
  { wA with
    authApprole := fun _ _ =>
      Except.ok (Val.dict [("auth", Val.dict [("client_token", Val.str "tok123")])]) }

theorem alook_aset {α : Type} (l : List (String × α)) (k j : String) (v : α) :
    alook (aset l k v) j = if k = j then some v else alook l j := by
  induction l with
  | nil => simp [aset, alook]
  | cons p rest ih =>
    obtain ⟨k', v'⟩ := p
    simp only [aset]
    by_cases hk : k' = k
    · subst hk
      simp only [if_pos rfl, alook]
      by_cases hj : k' = j <;> simp [hj]
    · simp only [if_neg hk, alook]
      by_cases hj : k' = j
      · subst hj
        have hkj : ¬(k = k') := fun h => hk h.symm
        simp [if_neg hkj]
      · simp [if_neg hj, ih]

theorem ahas_aset {α : Type} (l : List (String × α)) (k j : String) (v : α) :
    ahas (aset l k v) j = if k = j then true else ahas l j := by
  induction l with
  | nil => simp [aset, ahas]
  | cons p rest ih =>
    obtain ⟨k', v'⟩ := p
    simp only [aset]
    by_cases hk : k' = k
    · subst hk
      simp only [if_pos rfl, ahas]
      by_cases hj : k' = j <;> simp [hj]
    · simp only [if_neg hk, ahas]
      by_cases hj : k' = j
      · subst hj
        have hkj : ¬(k = k') := fun h => hk h.symm
        simp [if_neg hkj]
      · simp [if_neg hj, ih]

theorem alook_of_ahas_false {α : Type} {l : List (String × α)} {k : String}
    (h : ahas l k = false) : alook l k = Option.none := by
  induction l with
  | nil => rfl
  | cons p rest ih =>
    obtain ⟨k', v'⟩ := p
    simp only [ahas] at h
    by_cases hk : k' = k
    · simp [if_pos hk] at h
    · simp only [alook, if_neg hk]
      exact ih (by simpa [if_neg hk] using h)

theorem ahas_of_alook {α : Type} {l : List (String × α)} {k : String} {v : α}
    (h : alook l k = some v) : ahas l k = true := by
  induction l with
  | nil => simp [alook] at h
  | cons p rest ih =>
    obtain ⟨k', v'⟩ := p
    simp only [alook] at h
    simp only [ahas]
    by_cases hk : k' = k
    · simp [if_pos hk]
    · simp only [if_neg hk] at h ⊢
      exact ih h

theorem lookLast_of_ahas_false {α : Type} {l : List (String × α)} {k : String}
    (h : ahas l k = false) : lookLast l k = Option.none := by
  induction l with
  | nil => rfl
  | cons p rest ih =>
    obtain ⟨k', v'⟩ := p
    simp only [ahas] at h
    by_cases hk : k' = k
    · simp [if_pos hk] at h
    · simp only [lookLast, ih (by simpa [if_neg hk] using h), if_neg hk]

theorem alook_apop_ne {α : Type} (l : List (String × α)) {k j : String}
    (h : k ≠ j) : alook (apop l k) j = alook l j := by
  induction l with
  | nil => rfl
  | cons p rest ih =>
    obtain ⟨k', v'⟩ := p
    simp only [apop]
    by_cases hk : k' = k
    · subst hk
      simp [alook, h]
    · simp only [alook, if_neg hk, ih]

theorem alook_apop_self {α : Type} {l : List (String × α)} {k : String}
    (h : nodupKeys l = true) : alook (apop l k) k = Option.none := by
  induction l with
  | nil => rfl
  | cons p rest ih =>
    obtain ⟨k', v'⟩ := p
    simp only [nodupKeys, Bool.and_eq_true, Bool.not_eq_true'] at h
    simp only [apop]
    by_cases hk : k' = k
    · subst hk
      simp only [if_pos rfl]
      exact alook_of_ahas_false h.1
    · simp only [if_neg hk, alook, if_neg hk]
      exact ih h.2

theorem aset_ne_nil {α : Type} (l : List (String × α)) (k : String) (v : α) :
    aset l k v ≠ [] := by
  cases l with
  | nil => simp [aset]
  | cons p rest =>
    obtain ⟨k', v'⟩ := p
    simp only [aset]
    by_cases hk : k' = k
    · simp [if_pos hk]
    · simp [if_neg hk]

theorem mem_aset {α : Type} {p : String × α} {l : List (String × α)}
    {k : String} {v : α} (h : p ∈ aset l k v) : p ∈ l ∨ p = (k, v) := by
  induction l with
  | nil => simp [aset] at h; right; exact h
  | cons q rest ih =>
    obtain ⟨k', v'⟩ := q
    simp only [aset] at h
    by_cases hk : k' = k
    · simp only [if_pos hk, List.mem_cons] at h
      rcases h with h | h
      · right; exact h
      · left; exact List.mem_cons_of_mem _ h
    · simp only [if_neg hk, List.mem_cons] at h
      rcases h with h | h
      · left; simp [h]
      · rcases ih h with h | h
        · left; exact List.mem_cons_of_mem _ h
        · right; exact h

theorem mem_apop {α : Type} {p : String × α} {l : List (String × α)}
    {k : String} (h : p ∈ apop l k) : p ∈ l := by
  induction l with
  | nil => simp [apop] at h
  | cons q rest ih =>
    obtain ⟨k', v'⟩ := q
    simp only [apop] at h
    by_cases hk : k' = k
    · simp only [if_pos hk] at h
      exact List.mem_cons_of_mem _ h
    · simp only [if_neg hk, List.mem_cons] at h
      rcases h with h | h
      · simp [h]
      · exact List.mem_cons_of_mem _ (ih h)

theorem ahas_apop {α : Type} {l : List (String × α)} {k j : String}
    (h : ahas (apop l k) j = true) : ahas l j = true := by
  induction l with
  | nil => simpa [apop] using h
  | cons q rest ih =>
    obtain ⟨k', v'⟩ := q
    simp only [apop] at h
    simp only [ahas]
    by_cases hk : k' = k
    · simp only [if_pos hk] at h
      by_cases hj : k' = j
      · simp [if_pos hj]
      · simp only [if_neg hj]
        subst hk
        cases hh : ahas rest j with
        | true => rfl
        | false =>
          exact absurd h (by simp [hh])
    · simp only [if_neg hk, ahas] at h
      by_cases hj : k' = j
      · simp [if_pos hj]
      · simp only [if_neg hj] at h ⊢
        exact ih h

theorem nodupKeys_aset {α : Type} {l : List (String × α)} (k : String) (v : α)
    (h : nodupKeys l = true) : nodupKeys (aset l k v) = true := by
  induction l with
  | nil => simp [aset, nodupKeys, ahas]
  | cons q rest ih =>
    obtain ⟨k', v'⟩ := q
    simp only [nodupKeys, Bool.and_eq_true, Bool.not_eq_true'] at h
    simp only [aset]
    by_cases hk : k' = k
    · subst hk
      simp only [nodupKeys, Bool.and_eq_true, Bool.not_eq_true']
      exact ⟨h.1, h.2⟩
    · simp only [if_neg hk, nodupKeys, Bool.and_eq_true, Bool.not_eq_true']
      refine ⟨?_, ih h.2⟩
      rw [ahas_aset]
      have : ¬(k = k') := fun hh => hk hh.symm
      simp [if_neg this, h.1]

theorem nodupKeys_apop {α : Type} {l : List (String × α)} (k : String)
    (h : nodupKeys l = true) : nodupKeys (apop l k) = true := by
  induction l with
  | nil => simpa [apop] using h
  | cons q rest ih =>
    obtain ⟨k', v'⟩ := q
    simp only [nodupKeys, Bool.and_eq_true, Bool.not_eq_true'] at h
    simp only [apop]
    by_cases hk : k' = k
    · simp only [if_pos hk]
      exact h.2
    · simp only [if_neg hk, nodupKeys, Bool.and_eq_true, Bool.not_eq_true']
      refine ⟨?_, ih h.2⟩
      cases hh : ahas (apop rest k) k' with
      | false => rfl
      | true => rw [ahas_apop hh] at h; exact absurd h.1 (by simp)

theorem aset_of_ahas_false {α : Type} {l : List (String × α)} {k : String}
    (v : α) (h : ahas l k = false) : aset l k v = l ++ [(k, v)] := by
  induction l with
  | nil => simp [aset]
  | cons q rest ih =>
    obtain ⟨k', v'⟩ := q
    simp only [ahas] at h
    by_cases hk : k' = k
    · simp [if_pos hk] at h
    · simp only [aset, if_neg hk, List.cons_append, List.cons.injEq, true_and]
      exact ih (by simpa [if_neg hk] using h)

theorem alook_append_left {α : Type} {l : List (String × α)} {k : String}
    (l2 : List (String × α)) (h : alook l k = Option.none) :
    alook (l ++ l2) k = alook l2 k := by
  induction l with
  | nil => rfl
  | cons q rest ih =>
    obtain ⟨k', v'⟩ := q
    simp only [alook] at h
    by_cases hk : k' = k
    · simp [if_pos hk] at h
    · simp only [List.cons_append, alook, if_neg hk]
      exact ih (by simpa [if_neg hk] using h)

theorem ahas_append {α : Type} (l l2 : List (String × α)) (k : String) :
    ahas (l ++ l2) k = (ahas l k || ahas l2 k) := by
  induction l with
  | nil => simp [ahas]
  | cons q rest ih =>
    obtain ⟨k', v'⟩ := q
    simp only [List.cons_append, ahas]
    by_cases hk : k' = k
    · simp [if_pos hk]
    · simp [if_neg hk, ih]

theorem mem_ahas {α : Type} {p : String × α} {l : List (String × α)}
    (h : p ∈ l) : ahas l p.1 = true := by
  induction l with
  | nil => simp at h
  | cons q rest ih =>
    obtain ⟨k', v'⟩ := q
    simp only [List.mem_cons] at h
    simp only [ahas]
    rcases h with h | h
    · simp [h]
    · by_cases hk : k' = p.1
      · simp [if_pos hk]
      · simp [if_neg hk, ih h]

theorem ahas_exists {α : Type} {l : List (String × α)} {k : String}
    (h : ahas l k = true) : ∃ v, alook l k = some v := by
  induction l with
  | nil => simp [ahas] at h
  | cons q rest ih =>
    obtain ⟨k', v'⟩ := q
    simp only [ahas] at h
    by_cases hk : k' = k
    · exact ⟨v', by simp [alook, if_pos hk]⟩
    · simp only [if_neg hk] at h
      obtain ⟨v, hv⟩ := ih h
      exact ⟨v, by simp [alook, if_neg hk, hv]⟩

theorem ahas_false_of_alook_none {α : Type} {l : List (String × α)} {k : String}
    (h : alook l k = Option.none) : ahas l k = false := by
  cases hh : ahas l k with
  | false => rfl
  | true =>
    obtain ⟨v, hv⟩ := ahas_exists hh
    rw [hv] at h
    exact absurd h (by simp)

theorem updateD_alook (cur upd : SecretVals) (k : String) :
    alook (updateD cur upd) k =
      match lookLast upd k with
      | some v => some v
      | Option.none => alook cur k := by
  induction upd generalizing cur with
  | nil => simp [updateD, lookLast]
  | cons p rest ih =>
    obtain ⟨k0, v0⟩ := p
    simp only [updateD, lookLast]
    rw [ih]
    cases hL : lookLast rest k with
    | some r => simp
    | none =>
      simp only []
      rw [alook_aset]
      by_cases hk : k0 = k <;> simp [hk]

theorem lookLast_eq_alook {α : Type} {l : List (String × α)} (k : String)
    (h : nodupKeys l = true) : lookLast l k = alook l k := by
  induction l with
  | nil => rfl
  | cons p rest ih =>
    obtain ⟨k', v⟩ := p
    simp only [nodupKeys, Bool.and_eq_true, Bool.not_eq_true'] at h
    simp only [lookLast, alook, ih h.2]
    by_cases hk : k' = k
    · subst hk
      rw [alook_of_ahas_false h.1]
    · simp only [if_neg hk]
      cases alook rest k <;> simp

theorem updateD_alook_nodup (cur : SecretVals) {upd : SecretVals} (k : String)
    (h : nodupKeys upd = true) :
    alook (updateD cur upd) k =
      match alook upd k with
      | some v => some v
      | Option.none => alook cur k := by
  rw [updateD_alook, lookLast_eq_alook k h]

theorem updateD_ne_nil {cur upd : SecretVals} (h : upd ≠ []) :
    updateD cur upd ≠ [] := by
  induction upd generalizing cur with
  | nil => exact absurd rfl h
  | cons p rest ih =>
    obtain ⟨k, v⟩ := p
    cases rest with
    | nil => simpa [updateD] using aset_ne_nil cur k v
    | cons q r2 => exact ih (by simp)

theorem updateD_disjoint {cur d : SecretVals} (hnd : nodupKeys d = true)
    (hd : ∀ p ∈ d, ahas cur p.1 = false) : updateD cur d = cur ++ d := by
  induction d generalizing cur with
  | nil => simp [updateD]
  | cons p rest ih =>
    obtain ⟨k, v⟩ := p
    simp only [nodupKeys, Bool.and_eq_true, Bool.not_eq_true'] at hnd
    simp only [updateD]
    rw [aset_of_ahas_false v (hd (k, v) (by simp))]
    rw [ih hnd.2]
    · simp
    · intro p hp
      rw [ahas_append]
      have h1 : ahas cur p.1 = false := hd p (List.mem_cons_of_mem _ hp)
      have h2 : p.1 ≠ k := by
        intro hh
        have := mem_ahas hp
        rw [hh] at this
        rw [this] at hnd
        exact absurd hnd.1 (by simp)
      have h3 : ¬(k = p.1) := fun hh => h2 hh.symm
      simp [ahas, h1, h3]

theorem lookup2_cons (t0 : String) (d0 : SecretVals) (rest : Secrets)
    (t k : String) :
    lookup2 ((t0, d0) :: rest) t k =
      if t0 = t then alook d0 k else lookup2 rest t k := by
  by_cases ht : t0 = t <;> simp [lookup2, alook, ht]

theorem lookup2_aset_self (s : Secrets) (t : String) (d : SecretVals) (k : String) :
    lookup2 (aset s t d) t k = alook d k := by
  simp [lookup2, alook_aset]

theorem lookup2_aset_ne (s : Secrets) {t0 t : String} (d : SecretVals)
    (k : String) (h : t0 ≠ t) :
    lookup2 (aset s t0 d) t k = lookup2 s t k := by
  simp [lookup2, alook_aset, if_neg h]

theorem goodSecrets_cons {t0 : String} {d0 : SecretVals} {rest : Secrets}
    (hg : goodSecrets ((t0, d0) :: rest) = true) :
    ahas rest t0 = false ∧ nodupKeys d0 = true ∧ goodSecrets rest = true := by
  simp only [goodSecrets, nodupKeys, List.all_cons, Bool.and_eq_true,
    Bool.not_eq_true'] at hg ⊢
  exact ⟨hg.1.1, hg.2.1, hg.1.2, hg.2.2⟩

theorem mergeOne_lookup2 (s : Secrets) {r : Secrets} (t k : String)
    (hg : goodSecrets r = true) :
    lookup2 (mergeOne s r) t k =
      match lookup2 r t k with
      | some v => some v
      | Option.none => lookup2 s t k := by
  induction r generalizing s with
  | nil => simp [mergeOne, lookup2, alook]
  | cons p rest ih =>
    obtain ⟨t0, d0⟩ := p
    obtain ⟨ht0, hnd0, hg'⟩ := goodSecrets_cons hg
    simp only [mergeOne]
    rw [ih _ hg', lookup2_cons]
    by_cases ht : t0 = t
    · subst ht
      have hr2 : lookup2 rest t0 k = Option.none := by
        simp [lookup2, alook_of_ahas_false ht0]
      rw [hr2, if_pos rfl]
      rw [lookup2_aset_self, updateD_alook_nodup _ k hnd0]
      cases hd0 : alook d0 k with
      | some v => simp
      | none =>
        simp only []
        cases hs : alook s t0 with
        | some d => simp [lookup2, hs]
        | none => simp [lookup2, hs, alook]
    · rw [if_neg ht]
      cases hr : lookup2 rest t k with
      | some v => simp
      | none => simp only []; rw [lookup2_aset_ne s _ k ht]

theorem mergeOne_disjoint {s r : Secrets} (hg : goodSecrets r = true)
    (hd : ∀ p ∈ r, alook s p.1 = Option.none) : mergeOne s r = s ++ r := by
  induction r generalizing s with
  | nil => simp [mergeOne]
  | cons p rest ih =>
    obtain ⟨t0, d0⟩ := p
    obtain ⟨ht0, hnd0, hg'⟩ := goodSecrets_cons hg
    have hs0 : alook s t0 = Option.none := hd (t0, d0) (by simp)
    simp only [mergeOne, hs0]
    have hset : aset s t0 (updateD [] d0) = s ++ [(t0, updateD [] d0)] :=
      aset_of_ahas_false _ (ahas_false_of_alook_none hs0)
    have hupd : updateD ([] : SecretVals) d0 = d0 := by
      have h9 : updateD ([] : SecretVals) d0 = [] ++ d0 :=
        updateD_disjoint hnd0 (fun p _ => rfl)
      simpa using h9
    rw [hupd] at hset
    rw [hupd, hset, ih hg']
    · simp
    · intro p hp
      have hne : p.1 ≠ t0 := by
        intro hh
        have := mem_ahas hp
        rw [hh, ht0] at this
        exact absurd this (by simp)
      rw [alook_append_left _ (hd p (List.mem_cons_of_mem _ hp))]
      have h3 : ¬(t0 = p.1) := fun hh => hne hh.symm
      simp [alook, h3]

theorem mergeOne_nil_good {r : Secrets} (hg : goodSecrets r = true) :
    mergeOne [] r = r := by
  have h9 : mergeOne ([] : Secrets) r = [] ++ r :=
    mergeOne_disjoint hg (fun p _ => rfl)
  simpa using h9

theorem goodSecrets_def {s : Secrets} :
    goodSecrets s = true ↔ (nodupKeys s = true ∧ ∀ p ∈ s, nodupKeys p.2 = true) := by
  simp [goodSecrets, List.all_eq_true]

theorem goodSecrets_aset {s : Secrets} {t : String} {d : SecretVals}
    (hg : goodSecrets s = true) (hd : nodupKeys d = true) :
    goodSecrets (aset s t d) = true := by
  rw [goodSecrets_def] at hg ⊢
  refine ⟨nodupKeys_aset t d hg.1, ?_⟩
  intro p hp
  rcases mem_aset hp with h | h
  · exact hg.2 p h
  · rw [h]; exact hd

theorem goodSecrets_apop {s : Secrets} (t : String)
    (hg : goodSecrets s = true) : goodSecrets (apop s t) = true := by
  rw [goodSecrets_def] at hg ⊢
  exact ⟨nodupKeys_apop t hg.1, fun p hp => hg.2 p (mem_apop hp)⟩

theorem inlineKeys_nodup {l : List (String × Val)} {acc : SecretVals}
    (h : nodupKeys acc = true) : nodupKeys (inlineKeys acc l) = true := by
  induction l generalizing acc with
  | nil => exact h
  | cons p rest ih =>
    obtain ⟨key, value⟩ := p
    simp only [inlineKeys]
    by_cases hk : inlineKeeps value = true
    · simp only [if_pos hk]
      exact ih (nodupKeys_aset key value h)
    · simp only [if_neg hk]
      exact ih h

theorem inlineTargets_good {info : SecretsInfo} {acc : Secrets}
    (h : goodSecrets acc = true) : goodSecrets (inlineTargets acc info) = true := by
  induction info generalizing acc with
  | nil => exact h
  | cons p rest ih =>
    obtain ⟨target, keys⟩ := p
    simp only [inlineTargets]
    by_cases he : (inlineKeys [] keys).isEmpty = true
    · simp only [if_pos he]
      exact ih (goodSecrets_apop target h)
    · simp only [if_neg he]
      exact ih (goodSecrets_aset h (inlineKeys_nodup rfl))

theorem load_inline_secrets_good (info : SecretsInfo) (cfg : Configuration) :
    goodSecrets (load_inline_secrets info cfg) = true :=
  inlineTargets_good rfl

theorem envKeys_nodup {w : World} {l : List (String × Val)} {acc d : SecretVals}
    (h : envKeys w acc l = .ok d) (ha : nodupKeys acc = true) :
    nodupKeys d = true := by
  induction l generalizing acc with
  | nil =>
    simp only [envKeys] at h
    cases h
    exact ha
  | cons p rest ih =>
    obtain ⟨key, value⟩ := p
    simp only [envKeys] at h
    cases he : envEntry w value with
    | error e => rw [he] at h; exact absurd h (by simp)
    | ok o =>
      rw [he] at h
      cases o with
      | none => exact ih h ha
      | some v => exact ih h (nodupKeys_aset key v ha)

theorem envTargets_good {w : World} {info : SecretsInfo} {acc r : Secrets}
    (h : envTargets w acc info = .ok r) (ha : goodSecrets acc = true) :
    goodSecrets r = true := by
  induction info generalizing acc with
  | nil =>
    simp only [envTargets] at h
    cases h
    exact ha
  | cons p rest ih =>
    obtain ⟨target, keys⟩ := p
    simp only [envTargets] at h
    cases he : envKeys w [] keys with
    | error e => rw [he] at h; exact absurd h (by simp)
    | ok d =>
      rw [he] at h
      dsimp only at h
      by_cases hd : d.isEmpty = true
      · rw [if_pos hd] at h
        exact ih h (goodSecrets_apop target ha)
      · rw [if_neg hd] at h
        exact ih h (goodSecrets_aset ha (envKeys_nodup he rfl))

theorem load_secrets_from_env_good {w : World} {info : SecretsInfo}
    {cfg : Configuration} {r : Secrets}
    (h : load_secrets_from_env w info cfg = .ok r) : goodSecrets r = true :=
  envTargets_good h rfl

theorem vaultKeys_nodup {w : World} {client : Option VaultClient}
    {l : List (String × Val)} {acc d : SecretVals}
    (h : vaultKeys w client acc l = .ok (some d)) (ha : nodupKeys acc = true) :
    nodupKeys d = true := by
  induction l generalizing acc with
  | nil =>
    simp only [vaultKeys] at h
    cases h
    exact ha
  | cons p rest ih =>
    obtain ⟨key, value⟩ := p
    simp only [vaultKeys] at h
    cases he : vaultEntry w client value with
    | error e => rw [he] at h; exact absurd h (by simp)
    | ok o =>
      rw [he] at h
      cases o with
      | notVault => exact ih h ha
      | skip => exact ih h ha
      | abort => exact absurd h (by simp)
      | put v => exact ih h (nodupKeys_aset key v ha)

theorem vaultTargets_good {w : World} {client : Option VaultClient}
    {info : SecretsInfo} {acc r : Secrets}
    (h : vaultTargets w client acc info = .ok (some r)) (ha : goodSecrets acc = true) :
    goodSecrets r = true := by
  induction info generalizing acc with
  | nil =>
    simp only [vaultTargets] at h
    cases h
    exact ha
  | cons p rest ih =>
    obtain ⟨target, keys⟩ := p
    simp only [vaultTargets] at h
    cases he : vaultKeys w client [] keys with
    | error e => rw [he] at h; exact absurd h (by simp)
    | ok o =>
      rw [he] at h
      cases o with
      | none => exact absurd h (by simp)
      | some d =>
        dsimp only at h
        by_cases hd : d.isEmpty = true
        · rw [if_pos hd] at h
          exact ih h (goodSecrets_apop target ha)
        · rw [if_neg hd] at h
          exact ih h (goodSecrets_aset ha (vaultKeys_nodup he rfl))

theorem load_secrets_from_vault_good {w : World} {info : SecretsInfo}
    {cfg : Configuration} {r : Secrets}
    (h : load_secrets_from_vault w info cfg = .ok r) : goodSecrets r = true := by
  simp only [load_secrets_from_vault] at h
  cases hc : create_vault_client w cfg with
  | error e => rw [hc] at h; exact absurd h (by simp)
  | ok client =>
    rw [hc] at h
    dsimp only at h
    cases ht : vaultTargets w client [] info with
    | error e => rw [ht] at h; exact absurd h (by simp)
    | ok o =>
      rw [ht] at h
      cases o with
      | none => cases h; rfl
      | some s => cases h; exact vaultTargets_good ht rfl

theorem load_secrets_eq {w : World} {info : SecretsInfo} {cfg : Configuration}
    {r2 r3 : Secrets}
    (h2 : load_secrets_from_env w info cfg = .ok r2)
    (h3 : load_secrets_from_vault w info cfg = .ok r3) :
    load_secrets w info cfg =
      .ok (mergeOne (mergeOne (mergeOne [] (load_inline_secrets info cfg)) r2) r3) := by
  simp [load_secrets, h2, h3]

theorem load_secrets_env_error {w : World} {info : SecretsInfo}
    {cfg : Configuration} {e : PyErr}
    (h : load_secrets_from_env w info cfg = .error e) :
    load_secrets w info cfg = .error e := by
  simp [load_secrets, h]

theorem load_secrets_ok_split {w : World} {info : SecretsInfo}
    {cfg : Configuration} {s : Secrets} (h : load_secrets w info cfg = .ok s) :
    ∃ r2 r3, load_secrets_from_env w info cfg = .ok r2 ∧
      load_secrets_from_vault w info cfg = .ok r3 ∧
      s = mergeOne (mergeOne (mergeOne [] (load_inline_secrets info cfg)) r2) r3 := by
  simp only [load_secrets] at h
  cases h2 : load_secrets_from_env w info cfg with
  | error e => rw [h2] at h; exact absurd h (by simp)
  | ok r2 =>
    rw [h2] at h
    cases h3 : load_secrets_from_vault w info cfg with
    | error e => rw [h3] at h; exact absurd h (by simp)
    | ok r3 =>
      rw [h3] at h
      cases h
      exact ⟨r2, r3, rfl, rfl, rfl⟩

theorem ne_nil_of_isEmpty_ne {α : Type} {l : List α} (h : ¬l.isEmpty = true) :
    l ≠ [] := by
  cases l with
  | nil => simp at h
  | cons a t => simp

theorem inlineTargets_net {info : SecretsInfo} {acc : Secrets}
    (h : ∀ p ∈ acc, p.2 ≠ []) : ∀ p ∈ inlineTargets acc info, p.2 ≠ [] := by
  induction info generalizing acc with
  | nil => exact h
  | cons q rest ih =>
    obtain ⟨target, keys⟩ := q
    simp only [inlineTargets]
    by_cases he : (inlineKeys [] keys).isEmpty = true
    · rw [if_pos he]
      exact ih (fun p hp => h p (mem_apop hp))
    · rw [if_neg he]
      refine ih (fun p hp => ?_)
      rcases mem_aset hp with hm | hm
      · exact h p hm
      · rw [hm]
        exact ne_nil_of_isEmpty_ne he

theorem envTargets_net {w : World} {info : SecretsInfo} {acc r : Secrets}
    (hr : envTargets w acc info = .ok r) (h : ∀ p ∈ acc, p.2 ≠ []) :
    ∀ p ∈ r, p.2 ≠ [] := by
  induction info generalizing acc with
  | nil =>
    simp only [envTargets] at hr
    cases hr
    exact h
  | cons q rest ih =>
    obtain ⟨target, keys⟩ := q
    simp only [envTargets] at hr
    cases he : envKeys w [] keys with
    | error e => rw [he] at hr; exact absurd hr (by simp)
    | ok d =>
      rw [he] at hr
      dsimp only at hr
      by_cases hd : d.isEmpty = true
      · rw [if_pos hd] at hr
        exact ih hr (fun p hp => h p (mem_apop hp))
      · rw [if_neg hd] at hr
        refine ih hr (fun p hp => ?_)
        rcases mem_aset hp with hm | hm
        · exact h p hm
        · rw [hm]
          exact ne_nil_of_isEmpty_ne hd

theorem vaultTargets_net {w : World} {client : Option VaultClient}
    {info : SecretsInfo} {acc r : Secrets}
    (hr : vaultTargets w client acc info = .ok (some r))
    (h : ∀ p ∈ acc, p.2 ≠ []) : ∀ p ∈ r, p.2 ≠ [] := by
  induction info generalizing acc with
  | nil =>
    simp only [vaultTargets] at hr
    cases hr
    exact h
  | cons q rest ih =>
    obtain ⟨target, keys⟩ := q
    simp only [vaultTargets] at hr
    cases he : vaultKeys w client [] keys with
    | error e => rw [he] at hr; exact absurd hr (by simp)
    | ok o =>
      rw [he] at hr
      cases o with
      | none => exact absurd hr (by simp)
      | some d =>
        dsimp only at hr
        by_cases hd : d.isEmpty = true
        · rw [if_pos hd] at hr
          exact ih hr (fun p hp => h p (mem_apop hp))
        · rw [if_neg hd] at hr
          refine ih hr (fun p hp => ?_)
          rcases mem_aset hp with hm | hm
          · exact h p hm
          · rw [hm]
            exact ne_nil_of_isEmpty_ne hd

theorem load_inline_secrets_net (info : SecretsInfo) (cfg : Configuration) :
    ∀ p ∈ load_inline_secrets info cfg, p.2 ≠ [] :=
  inlineTargets_net (fun p hp => by simp at hp)

theorem load_secrets_from_env_net {w : World} {info : SecretsInfo}
    {cfg : Configuration} {r : Secrets}
    (h : load_secrets_from_env w info cfg = .ok r) : ∀ p ∈ r, p.2 ≠ [] :=
  envTargets_net h (fun p hp => by simp at hp)

theorem load_secrets_from_vault_net {w : World} {info : SecretsInfo}
    {cfg : Configuration} {r : Secrets}
    (h : load_secrets_from_vault w info cfg = .ok r) : ∀ p ∈ r, p.2 ≠ [] := by
  simp only [load_secrets_from_vault] at h
  cases hc : create_vault_client w cfg with
  | error e => rw [hc] at h; exact absurd h (by simp)
  | ok client =>
    rw [hc] at h
    dsimp only at h
    cases ht : vaultTargets w client [] info with
    | error e => rw [ht] at h; exact absurd h (by simp)
    | ok o =>
      rw [ht] at h
      cases o with
      | none =>
        cases h
        intro p hp
        simp at hp
      | some s =>
        cases h
        exact vaultTargets_net ht (fun p hp => by simp at hp)

theorem mergeOne_net {s r : Secrets} (hs : ∀ p ∈ s, p.2 ≠ [])
    (hr : ∀ p ∈ r, p.2 ≠ []) : ∀ p ∈ mergeOne s r, p.2 ≠ [] := by
  induction r generalizing s with
  | nil => exact hs
  | cons q rest ih =>
    obtain ⟨key, value⟩ := q
    simp only [mergeOne]
    refine ih (fun p hp => ?_) (fun p hp => hr p (List.mem_cons_of_mem _ hp))
    rcases mem_aset hp with hm | hm
    · exact hs p hm
    · rw [hm]
      exact updateD_ne_nil (hr (key, value) (by simp))

/-- C1: `load_secrets` composes the three resolvers in the fixed order
inline, env, vault, merging with a shallow per-target dict update, so the
final value at any `(target, key)` is the vault resolver value if it
produced one, else the env resolver value, else the inline value. -/
theorem C1_merge_precedence (w : World) (info : SecretsInfo)
    (cfg : Configuration) (r2 r3 s : Secrets)
    (h2 : load_secrets_from_env w info cfg = .ok r2)
    (h3 : load_secrets_from_vault w info cfg = .ok r3)
    (hs : load_secrets w info cfg = .ok s) :
    s = mergeOne (mergeOne (mergeOne [] (load_inline_secrets info cfg)) r2) r3
    ∧ ∀ t k, lookup2 s t k =
        match lookup2 r3 t k with
        | some v => some v
        | Option.none =>
          match lookup2 r2 t k with
          | some v => some v
          | Option.none => lookup2 (load_inline_secrets info cfg) t k := by
  have heq := hs.symm.trans (load_secrets_eq h2 h3)
  have hse := Except.ok.inj heq
  refine ⟨hse, fun t k => ?_⟩
  rw [hse]
  rw [mergeOne_lookup2 _ t k (load_secrets_from_vault_good h3)]
  rw [mergeOne_lookup2 _ t k (load_secrets_from_env_good h2)]
  rw [mergeOne_nil_good (load_inline_secrets_good info cfg)]

theorem C1_merge_precedence_witness :
    ([("t", [("k", Val.str "v")])] : Secrets) =
      mergeOne (mergeOne (mergeOne []
        (load_inline_secrets [("t", [("k", Val.str "v")])] [])) []) [] :=
  (C1_merge_precedence wB [("t", [("k", Val.str "v")])] [] [] []
    [("t", [("k", Val.str "v")])] rfl rfl rfl).1

/-- C4: whenever `load_secrets` returns normally, every target present in
the result maps to a nonempty dict; targets none of whose secrets
resolved are absent altogether. -/
theorem C4_no_empty_target (w : World) (info : SecretsInfo)
    (cfg : Configuration) (s : Secrets) (hs : load_secrets w info cfg = .ok s) :
    ∀ p ∈ s, p.2 ≠ [] := by
  obtain ⟨r2, r3, h2, h3, hse⟩ := load_secrets_ok_split hs
  rw [hse]
  exact mergeOne_net
    (mergeOne_net (mergeOne_net (fun p hp => by simp at hp)
        (load_inline_secrets_net info cfg))
      (load_secrets_from_env_net h2))
    (load_secrets_from_vault_net h3)

theorem C4_no_empty_target_witness :
    ([("k", Val.str "v")] : SecretVals) ≠ [] :=
  C4_no_empty_target wB [("t", [("k", Val.str "v")])] []
    [("t", [("k", Val.str "v")])] rfl ("t", [("k", Val.str "v")]) (by simp)

theorem vaultEntry_no_hvac {w : World} (client : Option VaultClient)
    (value : Val) (hh : w.hasHvac = false) :
    vaultEntry w client value = .ok .abort
    ∨ vaultEntry w client value = .ok .notVault := by
  cases value with
  | none => right; rfl
  | str s => right; rfl
  | dict d =>
    by_cases hv : Val.eqStr (dget d "type") "vault" = true
    · left; simp [vaultEntry, hv, hh]
    · right; simp [vaultEntry, hv]

theorem vaultKeys_no_hvac {w : World} (client : Option VaultClient)
    (acc : SecretVals) (l : List (String × Val)) (hh : w.hasHvac = false) :
    vaultKeys w client acc l = .ok (some acc)
    ∨ vaultKeys w client acc l = .ok Option.none := by
  induction l generalizing acc with
  | nil => left; rfl
  | cons p rest ih =>
    obtain ⟨key, value⟩ := p
    simp only [vaultKeys]
    rcases vaultEntry_no_hvac client value hh with he | he
    · rw [he]
      right; rfl
    · rw [he]
      exact ih acc

theorem vaultTargets_no_hvac {w : World} (client : Option VaultClient)
    (info : SecretsInfo) (hh : w.hasHvac = false) :
    vaultTargets w client [] info = .ok (some [])
    ∨ vaultTargets w client [] info = .ok Option.none := by
  induction info with
  | nil => left; rfl
  | cons p rest ih =>
    obtain ⟨target, keys⟩ := p
    simp only [vaultTargets]
    rcases vaultKeys_no_hvac client [] keys hh with he | he
    · rw [he]
      simpa [apop] using ih
    · rw [he]
      right; rfl

theorem load_secrets_from_vault_no_hvac (w : World) (info : SecretsInfo)
    (cfg : Configuration) (hh : w.hasHvac = false) :
    load_secrets_from_vault w info cfg = .ok [] := by
  have hc : create_vault_client w cfg = .ok Option.none := by
    simp [create_vault_client, hh]
  simp only [load_secrets_from_vault, hc]
  rcases vaultTargets_no_hvac Option.none info hh with ht | ht <;> rw [ht]

/-- C5: when the hvac library is unavailable, the Store resolver
contributes an empty result for the whole call without raising, and
`load_secrets` returns exactly the merge of the inline and env loader
results. -/
theorem C5_missing_hvac (w : World) (info : SecretsInfo) (cfg : Configuration)
    (r2 : Secrets) (hh : w.hasHvac = false)
    (_href : containsVaultRef info = true)
    (h2 : load_secrets_from_env w info cfg = .ok r2) :
    load_secrets_from_vault w info cfg = .ok []
    ∧ load_secrets w info cfg =
        .ok (mergeOne (mergeOne [] (load_inline_secrets info cfg)) r2) := by
  have h3 := load_secrets_from_vault_no_hvac w info cfg hh
  exact ⟨h3, load_secrets_eq h2 h3⟩

theorem C5_missing_hvac_witness :
    load_secrets_from_vault wB
      [("t1", [("s1", Val.str "v1")]),
       ("t3", [("s3", Val.dict [("type", Val.str "vault"),
                                ("path", Val.str "foo/bar")])])] [] = .ok []
    ∧ load_secrets wB
        [("t1", [("s1", Val.str "v1")]),
         ("t3", [("s3", Val.dict [("type", Val.str "vault"),
                                  ("path", Val.str "foo/bar")])])] [] =
        .ok (mergeOne (mergeOne []
          (load_inline_secrets
            [("t1", [("s1", Val.str "v1")]),
             ("t3", [("s3", Val.dict [("type", Val.str "vault"),
                                      ("path", Val.str "foo/bar")])])] [])) []) :=
  C5_missing_hvac wB
    [("t1", [("s1", Val.str "v1")]),
     ("t3", [("s3", Val.dict [("type", Val.str "vault"),
                              ("path", Val.str "foo/bar")])])] [] []
    rfl rfl rfl

/-- C8: the client factory returns no client without hvac; with hvac it
binds the configured address and KV version (default `"2"`) and then
either assigns the static token, or performs the AppRole exchange whose
failure raises `InvalidExperiment` wrapping the cause, or, with neither
credential configured, returns the client unauthenticated. -/
theorem C8_client_factory (w : World) (cfg : Configuration) :
    (w.hasHvac = false → create_vault_client w cfg = .ok Option.none)
    ∧ (w.hasHvac = true → ahas cfg "vault_token" = true →
        create_vault_client w cfg = .ok (some
          { url := dget cfg "vault_addr"
            default_kv_version := pyStr (dgetD cfg "vault_kv_version" (Val.str "2"))
            token := dget cfg "vault_token" }))
    ∧ (w.hasHvac = true → ahas cfg "vault_token" = false →
        ahas cfg "vault_role_id" = true → ahas cfg "vault_role_secret" = true →
        ∀ e, w.authApprole (dget cfg "vault_role_id") (dget cfg "vault_role_secret")
            = .error e →
          create_vault_client w cfg = .error (.invalidExperiment
            ("Failed to connect to Vault with the AppRole: " ++ e)))
    ∧ (w.hasHvac = true → ahas cfg "vault_token" = false →
        (ahas cfg "vault_role_id" && ahas cfg "vault_role_secret") = false →
        create_vault_client w cfg = .ok (some
          { url := dget cfg "vault_addr"
            default_kv_version := pyStr (dgetD cfg "vault_kv_version" (Val.str "2"))
            token := Val.none }))
    ∧ (ahas cfg "vault_kv_version" = false →
        pyStr (dgetD cfg "vault_kv_version" (Val.str "2")) = "2") := by
  refine ⟨?_, ?_, ?_, ?_, ?_⟩
  · intro hh
    simp [create_vault_client, hh]
  · intro hh ht
    simp [create_vault_client, hh, ht]
  · intro hh ht hr1 hr2 e he
    simp [create_vault_client, hh, ht, hr1, hr2, he]
  · intro hh ht hr
    simp only [create_vault_client, hh, if_true, ht, Bool.false_eq_true, if_false, hr]
  · intro hk
    rw [dgetD, alook_of_ahas_false hk]
    rfl

theorem C8_client_factory_witness :
    create_vault_client wB [] = .ok Option.none
    ∧ create_vault_client wA [("vault_token", Val.str "tk")] = .ok (some
        { url := dget [("vault_token", Val.str "tk")] "vault_addr"
          default_kv_version :=
            pyStr (dgetD [("vault_token", Val.str "tk")] "vault_kv_version" (Val.str "2"))
          token := dget [("vault_token", Val.str "tk")] "vault_token" })
    ∧ create_vault_client wA
        [("vault_role_id", Val.str "r"), ("vault_role_secret", Val.str "s")] =
        .error (.invalidExperiment
          ("Failed to connect to Vault with the AppRole: " ++ "boom"))
    ∧ create_vault_client wA [] = .ok (some
        { url := dget [] "vault_addr"
          default_kv_version := pyStr (dgetD [] "vault_kv_version" (Val.str "2"))
          token := Val.none })
    ∧ pyStr (dgetD [] "vault_kv_version" (Val.str "2")) = "2" :=
  ⟨(C8_client_factory wB []).1 rfl,
   (C8_client_factory wA [("vault_token", Val.str "tk")]).2.1 rfl rfl,
   (C8_client_factory wA
      [("vault_role_id", Val.str "r"), ("vault_role_secret", Val.str "s")]).2.2.1
     rfl rfl rfl rfl "boom" rfl,
   (C8_client_factory wA []).2.2.2.1 rfl rfl rfl,
   (C8_client_factory wA []).2.2.2.2 rfl⟩

/-- C9: with a static token configured, `create_vault_client` takes the
token branch and never consults the AppRole endpoint, even when role
credentials are also configured: the result is the token-authenticated
client, for every possible AppRole endpoint behaviour. -/
theorem C9_token_over_role (w : World) (cfg : Configuration)
    (hh : w.hasHvac = true) (ht : ahas cfg "vault_token" = true)
    (_hr1 : ahas cfg "vault_role_id" = true)
    (_hr2 : ahas cfg "vault_role_secret" = true) :
    create_vault_client w cfg = .ok (some
      { url := dget cfg "vault_addr"
        default_kv_version := pyStr (dgetD cfg "vault_kv_version" (Val.str "2"))
        token := dget cfg "vault_token" })
    ∧ ∀ f, create_vault_client { w with authApprole := f } cfg
        = create_vault_client w cfg := by
  constructor
  · simp [create_vault_client, hh, ht]
  · intro f
    simp [create_vault_client, hh, ht]

theorem C9_token_over_role_witness :
    create_vault_client wA
      [("vault_token", Val.str "tk"), ("vault_role_id", Val.str "r"),
       ("vault_role_secret", Val.str "s")] = .ok (some
        { url := dget [("vault_token", Val.str "tk"), ("vault_role_id", Val.str "r"),
                       ("vault_role_secret", Val.str "s")] "vault_addr"
          default_kv_version :=
            pyStr (dgetD [("vault_token", Val.str "tk"), ("vault_role_id", Val.str "r"),
                          ("vault_role_secret", Val.str "s")] "vault_kv_version" (Val.str "2"))
          token := dget [("vault_token", Val.str "tk"), ("vault_role_id", Val.str "r"),
                         ("vault_role_secret", Val.str "s")] "vault_token" })
    ∧ create_vault_client
        { wA with authApprole := fun _ _ => Except.error "exchange refused" }
        [("vault_token", Val.str "tk"), ("vault_role_id", Val.str "r"),
         ("vault_role_secret", Val.str "s")] =
        create_vault_client wA
          [("vault_token", Val.str "tk"), ("vault_role_id", Val.str "r"),
           ("vault_role_secret", Val.str "s")] :=
  ⟨(C9_token_over_role wA
      [("vault_token", Val.str "tk"), ("vault_role_id", Val.str "r"),
       ("vault_role_secret", Val.str "s")] rfl rfl rfl rfl).1,
   (C9_token_over_role wA
      [("vault_token", Val.str "tk"), ("vault_role_id", Val.str "r"),
       ("vault_role_secret", Val.str "s")] rfl rfl rfl rfl).2
     (fun _ _ => Except.error "exchange refused")⟩

/-- C3: the Store resolver branches on the client KV version (default
`"2"`): version 1 reads the path directly and takes the payload's `data`
field, version 2 issues the versioned read and unwraps one extra `data`
layer; with the same stored dict behind both schemas the resolved value
is identical, as in the spec's `foo/bar` / `pw` / `shhh` example. -/
theorem C3_kv_version_branch (w : World) (p kk : String)
    (ddl : List (String × Val)) (v : Val)
    (hh : w.hasHvac = true)
    (hkk : alook ddl kk = some v)
    (h1 : w.readV1 (Val.str p) = Val.dict [("data", Val.dict ddl)])
    (h2 : w.readV2 (Val.str p) = Val.dict [("data", Val.dict [("data", Val.dict ddl)])]) :
    load_secrets w
      [("t3", [("s3", Val.dict [("type", Val.str "vault"), ("path", Val.str p),
                                ("key", Val.str kk)])])]
      [("vault_kv_version", Val.str "1")] = .ok [("t3", [("s3", v)])]
    ∧ load_secrets w
      [("t3", [("s3", Val.dict [("type", Val.str "vault"), ("path", Val.str p),
                                ("key", Val.str kk)])])]
      [] = .ok [("t3", [("s3", v)])] := by
  have hhas : ahas ddl kk = true := ahas_of_alook hkk
  have hdget : dget ddl kk = v := by rw [dget, hkk]
  constructor <;>
  · simp [load_secrets, load_secrets_from_env, load_secrets_from_vault,
      create_vault_client, envTargets, envKeys, envEntry, vaultTargets,
      vaultKeys, vaultEntry, vaultFetch, inlineTargets, inlineKeys, inlineKeeps,
      load_inline_secrets, mergeOne, updateD, aset, apop, alook, ahas,
      dget, dgetD, pyStr, pyGet, pyGetV, pySub, pyMem, falsy, Val.eqStr,
      hh, h1, h2, hhas, hdget, hkk]

theorem C3_kv_version_branch_witness :
    load_secrets wA
      [("t3", [("s3", Val.dict [("type", Val.str "vault"),
                                ("path", Val.str "foo/bar"),
                                ("key", Val.str "pw")])])]
      [("vault_kv_version", Val.str "1")] =
        .ok [("t3", [("s3", Val.str "shhh")])]
    ∧ load_secrets wA
      [("t3", [("s3", Val.dict [("type", Val.str "vault"),
                                ("path", Val.str "foo/bar"),
                                ("key", Val.str "pw")])])]
      [] = .ok [("t3", [("s3", Val.str "shhh")])] :=
  C3_kv_version_branch wA "foo/bar" "pw" [("pw", Val.str "shhh")]
    (Val.str "shhh") rfl rfl rfl rfl

theorem vaultSkipsFetch_fetch {w : World} {c : VaultClient}
    {rd : List (String × Val)} {path : Val}
    (hs : vaultSkipsFetch w c rd path = true) :
    vaultFetch w c rd path = .ok .skip := by
  simp only [vaultSkipsFetch] at hs
  simp only [vaultFetch]
  cases hkv : c.default_kv_version == "1" with
  | true =>
    simp only [hkv, eq_self_iff_true, if_true]
    cases hf : falsy (w.readV1 path) with
    | true => simp [hf]
    | false =>
      simp only [hf, Bool.false_eq_true, if_false]
      cases hd : pyGet (w.readV1 path) "data" Val.none with
      | error e => simp [hkv, hf, hd] at hs
      | ok data =>
        dsimp only
        cases halk : alook rd "key" with
        | none => simp [hkv, hf, hd, halk] at hs
        | some vault_key =>
          have hak : ahas rd "key" = true := ahas_of_alook halk
          have hps : pySub (Val.dict rd) "key" = .ok vault_key := by
            simp [pySub, halk]
          simp only [hak, eq_self_iff_true, if_true, hps]
          cases hmem : pyMem vault_key data with
          | error e => simp [hkv, hf, hd, halk, hmem] at hs
          | ok b =>
            dsimp only
            have hb : b = false := by
              simpa [hkv, hf, hd, halk, hmem] using hs
            simp [hb]
  | false =>
    simp only [hkv, Bool.false_eq_true, if_false]
    cases hf : falsy (w.readV2 path) with
    | true => simp [hf]
    | false =>
      simp only [hf, Bool.false_eq_true, if_false]
      cases hd1 : pyGet (w.readV2 path) "data" (Val.dict []) with
      | error e => simp [hkv, hf, hd1] at hs
      | ok d1 =>
        dsimp only
        cases hd : pyGet d1 "data" Val.none with
        | error e => simp [hkv, hf, hd1, hd] at hs
        | ok data =>
          dsimp only
          cases halk : alook rd "key" with
          | none => simp [hkv, hf, hd1, hd, halk] at hs
          | some vault_key =>
            have hak : ahas rd "key" = true := ahas_of_alook halk
            have hps : pySub (Val.dict rd) "key" = .ok vault_key := by
              simp [pySub, halk]
            simp only [hak, eq_self_iff_true, if_true, hps]
            cases hmem : pyMem vault_key data with
            | error e => simp [hkv, hf, hd1, hd, halk, hmem] at hs
            | ok b =>
              dsimp only
              have hb : b = false := by
                simpa [hkv, hf, hd1, hd, halk, hmem] using hs
              simp [hb]

theorem vaultSkips_entry {w : World} {c : VaultClient} {rd : List (String × Val)}
    (hh : w.hasHvac = true) (hty : Val.eqStr (dget rd "type") "vault" = true)
    (hs : vaultSkips w c rd = true) :
    vaultEntry w (some c) (Val.dict rd) = .ok .skip := by
  rw [vaultSkips] at hs
  simp only [vaultEntry, hty, hh, if_true, Bool.not_true]
  cases hpath : dget rd "path" with
  | none => rfl
  | str ps =>
    rw [hpath] at hs
    exact vaultSkipsFetch_fetch hs
  | dict pd =>
    rw [hpath] at hs
    exact vaultSkipsFetch_fetch hs

theorem vaultKeys_skip_mid {w : World} {client : Option VaultClient} {v0 : Val}
    (hv : vaultEntry w client v0 = .ok .skip) (l1 l2 : List (String × Val))
    (acc : SecretVals) (k : String) :
    vaultKeys w client acc (l1 ++ (k, v0) :: l2)
      = vaultKeys w client acc (l1 ++ l2) := by
  induction l1 generalizing acc with
  | nil => simp only [List.nil_append, vaultKeys, hv]
  | cons q rest ih =>
    obtain ⟨k1, v1⟩ := q
    simp only [List.cons_append, vaultKeys]
    cases he : vaultEntry w client v1 with
    | error e => rfl
    | ok o =>
      cases o with
      | notVault => exact ih acc
      | skip => exact ih acc
      | abort => rfl
      | put v => exact ih (aset acc k1 v)

theorem vaultTargets_keys_congr {w : World} {client : Option VaultClient}
    {ks1 ks2 : SecretVals}
    (hk : vaultKeys w client [] ks1 = vaultKeys w client [] ks2)
    (pre post : SecretsInfo) (acc : Secrets) (t : String) :
    vaultTargets w client acc (pre ++ (t, ks1) :: post)
      = vaultTargets w client acc (pre ++ (t, ks2) :: post) := by
  induction pre generalizing acc with
  | nil => simp only [List.nil_append, vaultTargets, hk]
  | cons q rest ih =>
    obtain ⟨t1, k1⟩ := q
    simp only [List.cons_append, vaultTargets]
    cases he : vaultKeys w client [] k1 with
    | error e => rfl
    | ok o =>
      cases o with
      | none => rfl
      | some d => exact ih _

/-- C6: in the Store resolver a vault-tagged entry that lacks a path,
reads a falsy payload, or names a key absent from the payload data is
skipped with no effect on the rest of the call: deleting it from the
spec leaves the resolver's result unchanged.  (Only the missing-library
condition, handled separately, discards the resolver's whole
contribution.) -/
theorem C6_skip_single_entry (w : World) (cfg : Configuration)
    (c : VaultClient) (pre post : SecretsInfo) (t k : String)
    (l1 l2 : SecretVals) (rd : List (String × Val))
    (hh : w.hasHvac = true)
    (hc : create_vault_client w cfg = .ok (some c))
    (hty : Val.eqStr (dget rd "type") "vault" = true)
    (hskip : vaultSkips w c rd = true) :
    load_secrets_from_vault w (pre ++ (t, l1 ++ (k, Val.dict rd) :: l2) :: post) cfg
      = load_secrets_from_vault w (pre ++ (t, l1 ++ l2) :: post) cfg := by
  have hentry := vaultSkips_entry hh hty hskip
  simp only [load_secrets_from_vault, hc]
  rw [vaultTargets_keys_congr (vaultKeys_skip_mid hentry l1 l2 [] k) pre post [] t]

theorem C6_skip_single_entry_witness :
    load_secrets_from_vault wA
      [("t", [("bad", Val.dict [("type", Val.str "vault")]),
              ("good", Val.dict [("type", Val.str "vault"),
                                 ("path", Val.str "foo/bar"),
                                 ("key", Val.str "pw")])])] []
      = load_secrets_from_vault wA
        [("t", [("good", Val.dict [("type", Val.str "vault"),
                                   ("path", Val.str "foo/bar"),
                                   ("key", Val.str "pw")])])] [] :=
  C6_skip_single_entry wA []
    { url := Val.none, default_kv_version := "2", token := Val.none }
    [] [] "t" "bad" []
    [("good", Val.dict [("type", Val.str "vault"), ("path", Val.str "foo/bar"),
                        ("key", Val.str "pw")])]
    [("type", Val.str "vault")]
    rfl rfl rfl rfl

theorem alook_mem {α : Type} {l : List (String × α)} {k : String} {v : α}
    (h : alook l k = some v) : (k, v) ∈ l := by
  induction l with
  | nil => simp [alook] at h
  | cons q rest ih =>
    obtain ⟨k0, v0⟩ := q
    simp only [alook] at h
    by_cases hk : k0 = k
    · rw [if_pos hk] at h
      have hv := Option.some.inj h
      simp [hk, hv]
    · rw [if_neg hk] at h
      exact List.mem_cons_of_mem _ (ih h)

theorem inlineKeys_not_has {keys : List (String × Val)} {k : String}
    (h : ahas keys k = false) (acc : SecretVals) :
    alook (inlineKeys acc keys) k = alook acc k := by
  induction keys generalizing acc with
  | nil => rfl
  | cons q rest ih =>
    obtain ⟨k0, v0⟩ := q
    simp only [ahas] at h
    by_cases hk : k0 = k
    · simp [if_pos hk] at h
    · rw [if_neg hk] at h
      simp only [inlineKeys]
      by_cases hkeep : inlineKeeps v0 = true
      · rw [if_pos hkeep, ih h, alook_aset, if_neg hk]
      · rw [if_neg hkeep, ih h]

theorem inlineKeys_alook {keys : List (String × Val)} {k : String} {ref : Val}
    (hnd : nodupKeys keys = true) (hk : alook keys k = some ref)
    (acc : SecretVals) :
    alook (inlineKeys acc keys) k =
      if inlineKeeps ref = true then some ref else alook acc k := by
  induction keys generalizing acc with
  | nil => simp [alook] at hk
  | cons q rest ih =>
    obtain ⟨k0, v0⟩ := q
    simp only [nodupKeys, Bool.and_eq_true, Bool.not_eq_true'] at hnd
    simp only [alook] at hk
    simp only [inlineKeys]
    by_cases hk0 : k0 = k
    · rw [if_pos hk0] at hk
      have hv := Option.some.inj hk
      subst hv
      subst hk0
      by_cases hkeep : inlineKeeps v0 = true
      · rw [if_pos hkeep, if_pos hkeep, inlineKeys_not_has hnd.1, alook_aset,
          if_pos rfl]
      · rw [if_neg hkeep, if_neg hkeep, inlineKeys_not_has hnd.1]
    · rw [if_neg hk0] at hk
      by_cases hkeep : inlineKeeps v0 = true
      · rw [if_pos hkeep, ih hnd.2 hk, alook_aset, if_neg hk0]
      · rw [if_neg hkeep, ih hnd.2 hk]

theorem inlineTargets_not_has {info : SecretsInfo} {t : String}
    (h : ahas info t = false) (acc : Secrets) :
    alook (inlineTargets acc info) t = alook acc t := by
  induction info generalizing acc with
  | nil => rfl
  | cons q rest ih =>
    obtain ⟨t0, keys0⟩ := q
    simp only [ahas] at h
    by_cases ht : t0 = t
    · simp [if_pos ht] at h
    · rw [if_neg ht] at h
      simp only [inlineTargets]
      by_cases he : (inlineKeys [] keys0).isEmpty = true
      · rw [if_pos he, ih h, alook_apop_ne _ ht]
      · rw [if_neg he, ih h, alook_aset, if_neg ht]

theorem inlineTargets_lookup2 {info : SecretsInfo} {t k : String}
    {keys : SecretVals} {ref : Val}
    (hnd : nodupKeys info = true) (ht : alook info t = some keys)
    (hndk : nodupKeys keys = true) (hk : alook keys k = some ref)
    {acc : Secrets} (hga : nodupKeys acc = true) :
    lookup2 (inlineTargets acc info) t k =
      if inlineKeeps ref = true then some ref else Option.none := by
  induction info generalizing acc with
  | nil => simp [alook] at ht
  | cons q rest ih =>
    obtain ⟨t0, keys0⟩ := q
    simp only [nodupKeys, Bool.and_eq_true, Bool.not_eq_true'] at hnd
    simp only [alook] at ht
    simp only [inlineTargets]
    by_cases ht0 : t0 = t
    · rw [if_pos ht0] at ht
      have hkeys := Option.some.inj ht
      subst hkeys
      subst ht0
      by_cases he : (inlineKeys [] keys0).isEmpty = true
      · rw [if_pos he]
        have hd := inlineKeys_alook hndk hk ([] : SecretVals)
        by_cases hkeep : inlineKeeps ref = true
        · exfalso
          rw [if_pos hkeep] at hd
          cases hdl : inlineKeys [] keys0 with
          | nil => rw [hdl] at hd; simp [alook] at hd
          | cons a b => rw [hdl] at he; simp at he
        · rw [if_neg hkeep]
          simp only [lookup2]
          rw [inlineTargets_not_has hnd.1, alook_apop_self hga]
      · rw [if_neg he]
        simp only [lookup2]
        rw [inlineTargets_not_has hnd.1, alook_aset, if_pos rfl]
        have hd := inlineKeys_alook hndk hk ([] : SecretVals)
        exact hd
    · rw [if_neg ht0] at ht
      by_cases he : (inlineKeys [] keys0).isEmpty = true
      · rw [if_pos he]
        exact ih hnd.2 ht (nodupKeys_apop _ hga)
      · rw [if_neg he]
        exact ih hnd.2 ht (nodupKeys_aset _ _ hga)

theorem inlineKeeps_not_env {v : Val} (h : inlineKeeps v = true) :
    isEnvRef v = false := by
  cases v with
  | none => rfl
  | str s => rfl
  | dict d =>
    simp only [inlineKeeps, Bool.not_eq_true', Bool.or_eq_false_iff] at h
    simp [isEnvRef, h.1]

theorem inlineKeeps_not_vault {v : Val} (h : inlineKeeps v = true) :
    isVaultRef v = false := by
  cases v with
  | none => rfl
  | str s => rfl
  | dict d =>
    simp only [inlineKeeps, Bool.not_eq_true', Bool.or_eq_false_iff] at h
    simp [isVaultRef, h.2]

theorem allKeeps_mem {info : SecretsInfo} (p : String × SecretVals)
    (q : String × Val) (h : allKeeps info = true) (hp : p ∈ info)
    (hq : q ∈ p.2) : inlineKeeps q.2 = true := by
  simp only [allKeeps, List.all_eq_true] at h
  exact h p hp q hq

theorem envEntry_not_env {w : World} {v : Val} (h : isEnvRef v = false) :
    envEntry w v = .ok Option.none := by
  cases v with
  | none => rfl
  | str s => rfl
  | dict d =>
    simp only [isEnvRef] at h
    simp [envEntry, h]

theorem envKeys_no_env {w : World} {keys : List (String × Val)}
    (h : ∀ q ∈ keys, isEnvRef q.2 = false) (acc : SecretVals) :
    envKeys w acc keys = .ok acc := by
  induction keys with
  | nil => rfl
  | cons q rest ih =>
    obtain ⟨k0, v0⟩ := q
    simp only [envKeys, envEntry_not_env (h (k0, v0) (by simp))]
    exact ih (fun q hq => h q (List.mem_cons_of_mem _ hq))

theorem envTargets_no_env {w : World} {info : SecretsInfo}
    (h : ∀ p ∈ info, ∀ q ∈ p.2, isEnvRef q.2 = false) :
    envTargets w [] info = .ok [] := by
  induction info with
  | nil => rfl
  | cons p rest ih =>
    obtain ⟨t0, keys0⟩ := p
    have hk : envKeys w [] keys0 = .ok [] :=
      envKeys_no_env (fun q hq => h (t0, keys0) (by simp) q hq) []
    simp only [envTargets, hk]
    exact ih (fun p hp => h p (List.mem_cons_of_mem _ hp))

theorem vaultEntry_not_vault {w : World} {client : Option VaultClient} {v : Val}
    (h : isVaultRef v = false) : vaultEntry w client v = .ok .notVault := by
  cases v with
  | none => rfl
  | str s => rfl
  | dict d =>
    simp only [isVaultRef] at h
    simp [vaultEntry, h]

theorem vaultKeys_no_vault {w : World} {client : Option VaultClient}
    {keys : List (String × Val)}
    (h : ∀ q ∈ keys, isVaultRef q.2 = false) (acc : SecretVals) :
    vaultKeys w client acc keys = .ok (some acc) := by
  induction keys with
  | nil => rfl
  | cons q rest ih =>
    obtain ⟨k0, v0⟩ := q
    simp only [vaultKeys, vaultEntry_not_vault (h (k0, v0) (by simp))]
    exact ih (fun q hq => h q (List.mem_cons_of_mem _ hq))

theorem vaultTargets_no_vault {w : World} {client : Option VaultClient}
    {info : SecretsInfo}
    (h : ∀ p ∈ info, ∀ q ∈ p.2, isVaultRef q.2 = false) :
    vaultTargets w client [] info = .ok (some []) := by
  induction info with
  | nil => rfl
  | cons p rest ih =>
    obtain ⟨t0, keys0⟩ := p
    have hk : vaultKeys w client [] keys0 = .ok (some []) :=
      vaultKeys_no_vault (fun q hq => h (t0, keys0) (by simp) q hq) []
    simp only [vaultTargets, hk]
    exact ih (fun p hp => h p (List.mem_cons_of_mem _ hp))

theorem load_secrets_from_vault_no_vault {w : World} {info : SecretsInfo}
    {cfg : Configuration} {r : Secrets}
    (h3 : load_secrets_from_vault w info cfg = .ok r)
    (h : ∀ p ∈ info, ∀ q ∈ p.2, isVaultRef q.2 = false) : r = [] := by
  simp only [load_secrets_from_vault] at h3
  cases hc : create_vault_client w cfg with
  | error e => rw [hc] at h3; exact absurd h3 (by simp)
  | ok client =>
    rw [hc] at h3
    dsimp only at h3
    rw [vaultTargets_no_vault h] at h3
    exact (Except.ok.inj h3).symm

theorem aset_nil_eq {α : Type} (k : String) (v : α) :
    aset ([] : List (String × α)) k v = [(k, v)] := rfl

theorem inlineKeys_all_keep {keys : List (String × Val)} {acc : SecretVals}
    (hnd : nodupKeys keys = true) (hk : ∀ q ∈ keys, inlineKeeps q.2 = true)
    (hdisj : ∀ q ∈ keys, ahas acc q.1 = false) :
    inlineKeys acc keys = acc ++ keys := by
  induction keys generalizing acc with
  | nil => simp [inlineKeys]
  | cons q rest ih =>
    obtain ⟨k0, v0⟩ := q
    simp only [nodupKeys, Bool.and_eq_true, Bool.not_eq_true'] at hnd
    simp only [inlineKeys, hk (k0, v0) (by simp), if_true]
    rw [aset_of_ahas_false v0 (hdisj (k0, v0) (by simp))]
    have hkr : ∀ q ∈ rest, inlineKeeps q.2 = true :=
      fun q hq => hk q (List.mem_cons_of_mem _ hq)
    have hdr : ∀ q ∈ rest, ahas (acc ++ [(k0, v0)]) q.1 = false := by
      intro q hq
      rw [ahas_append]
      have h1 := hdisj q (List.mem_cons_of_mem _ hq)
      have h2 : q.1 ≠ k0 := by
        intro hh
        have := mem_ahas hq
        rw [hh] at this
        rw [this] at hnd
        exact absurd hnd.1 (by simp)
      have h3 : ¬(k0 = q.1) := fun hh => h2 hh.symm
      simp [ahas, h1, h3]
    rw [ih hnd.2 hkr hdr]
    simp

theorem nonEmptyTargets_mem {info : SecretsInfo} (p : String × SecretVals)
    (h : nonEmptyTargets info = true) (hp : p ∈ info) : p.2 ≠ [] := by
  simp only [nonEmptyTargets, List.all_eq_true] at h
  have := h p hp
  exact ne_nil_of_isEmpty_ne (by simpa using this)

theorem inlineTargets_all_keep {info : SecretsInfo} {acc : Secrets}
    (hg : goodSecrets info = true) (hk : allKeeps info = true)
    (hne : nonEmptyTargets info = true)
    (hdisj : ∀ p ∈ info, ahas acc p.1 = false) :
    inlineTargets acc info = acc ++ info := by
  induction info generalizing acc with
  | nil => simp [inlineTargets]
  | cons p rest ih =>
    obtain ⟨t0, keys0⟩ := p
    obtain ⟨ht0, hnd0, hg'⟩ := goodSecrets_cons hg
    have hkrest : allKeeps rest = true := by
      simp only [allKeeps, List.all_cons, Bool.and_eq_true] at hk
      exact hk.2
    have hnerest : nonEmptyTargets rest = true := by
      simp only [nonEmptyTargets, List.all_cons, Bool.and_eq_true] at hne
      exact hne.2
    have hkeys : inlineKeys [] keys0 = keys0 := by
      have h9 : inlineKeys ([] : SecretVals) keys0 = [] ++ keys0 :=
        inlineKeys_all_keep hnd0
          (fun q hq => allKeeps_mem (t0, keys0) q hk (by simp) hq)
          (fun q _ => rfl)
      simpa using h9
    have hne0 : keys0 ≠ [] := nonEmptyTargets_mem (t0, keys0) hne (by simp)
    have hie : ¬(List.isEmpty keys0 = true) := by
      cases keys0 with
      | nil => exact absurd rfl hne0
      | cons a b => simp
    simp only [inlineTargets, hkeys, if_neg hie]
    have hd0 : ahas acc t0 = false := hdisj (t0, keys0) (by simp)
    rw [aset_of_ahas_false keys0 hd0]
    have hdr : ∀ p ∈ rest, ahas (acc ++ [(t0, keys0)]) p.1 = false := by
      intro p hp
      rw [ahas_append]
      have h1 := hdisj p (List.mem_cons_of_mem _ hp)
      have h2 : p.1 ≠ t0 := by
        intro hh
        have := mem_ahas hp
        rw [hh] at this
        rw [this] at ht0
        exact absurd ht0 (by simp)
      have h3 : ¬(t0 = p.1) := fun hh => h2 hh.symm
      simp [ahas, h1, h3]
    rw [ih hg' hkrest hnerest hdr]
    simp

/-- C7, counterexample to the claim as stated: the spec
`{"t": {}}` contains only literal values (vacuously), yet `load_secrets`
drops the empty target and returns `{}`, not the input unchanged. -/
theorem C7_counterexample :
    load_secrets wB [("t", [])] [] = .ok []
    ∧ load_secrets wB [("t", [])] [] ≠ .ok [("t", [])] := by
  constructor
  · rfl
  · intro h
    have h0 : load_secrets wB [("t", [])] [] = .ok [] := rfl
    rw [h0] at h
    simp at h

/-- C7, amended: the Inline resolver keeps an entry exactly when the
value is not a dict tagged `env` or `vault`; and for every spec all of
whose values pass that filter and whose targets each hold at least one
secret, a normal return of `load_secrets` is the input unchanged. -/
theorem C7_inline_pass_through (w : World) (info : SecretsInfo)
    (cfg : Configuration) (hg : goodSecrets info = true) :
    (∀ t keys k ref, alook info t = some keys → alook keys k = some ref →
       lookup2 (load_inline_secrets info cfg) t k =
         if inlineKeeps ref = true then some ref else Option.none)
    ∧ (allKeeps info = true → nonEmptyTargets info = true →
       ∀ s, load_secrets w info cfg = .ok s → s = info) := by
  obtain ⟨hnd, hall⟩ := goodSecrets_def.mp hg
  constructor
  · intro t keys k ref ht hk
    have hndk : nodupKeys keys = true := hall (t, keys) (alook_mem ht)
    exact inlineTargets_lookup2 hnd ht hndk hk rfl
  · intro hkeeps hne s hs
    obtain ⟨r2, r3, h2, h3, hse⟩ := load_secrets_ok_split hs
    have h1 : load_inline_secrets info cfg = info := by
      have h9 : inlineTargets ([] : Secrets) info = [] ++ info :=
        inlineTargets_all_keep hg hkeeps hne (fun p _ => rfl)
      simpa [load_inline_secrets] using h9
    have hnv : ∀ p ∈ info, ∀ q ∈ p.2, isEnvRef q.2 = false :=
      fun p hp q hq => inlineKeeps_not_env (allKeeps_mem p q hkeeps hp hq)
    have hnvv : ∀ p ∈ info, ∀ q ∈ p.2, isVaultRef q.2 = false :=
      fun p hp q hq => inlineKeeps_not_vault (allKeeps_mem p q hkeeps hp hq)
    have hr2 : r2 = [] := by
      have he : load_secrets_from_env w info cfg = .ok [] := envTargets_no_env hnv
      rw [he] at h2
      exact (Except.ok.inj h2).symm
    have hr3 : r3 = [] := load_secrets_from_vault_no_vault h3 hnvv
    rw [hse, h1, hr2, hr3]
    exact mergeOne_nil_good hg

theorem C7_inline_pass_through_witness :
    lookup2 (load_inline_secrets [("t1", [("s1", Val.str "v1")])] []) "t1" "s1"
      = (if inlineKeeps (Val.str "v1") = true then some (Val.str "v1")
         else Option.none)
    ∧ ([("t1", [("s1", Val.str "v1")])] : Secrets)
      = [("t1", [("s1", Val.str "v1")])] :=
  ⟨(C7_inline_pass_through wB [("t1", [("s1", Val.str "v1")])] [] rfl).1
      "t1" [("s1", Val.str "v1")] "s1" (Val.str "v1") rfl rfl,
   (C7_inline_pass_through wB [("t1", [("s1", Val.str "v1")])] [] rfl).2
      rfl rfl [("t1", [("s1", Val.str "v1")])] rfl⟩

theorem alook_split {α : Type} {l : List (String × α)} {k : String} {v : α}
    (h : alook l k = some v) :
    ∃ l1 l2, l = l1 ++ (k, v) :: l2 ∧ ∀ q ∈ l1, q.1 ≠ k := by
  induction l with
  | nil => simp [alook] at h
  | cons q rest ih =>
    obtain ⟨k0, v0⟩ := q
    simp only [alook] at h
    by_cases hk : k0 = k
    · rw [if_pos hk] at h
      have hv := Option.some.inj h
      subst hv
      subst hk
      exact ⟨[], rest, rfl, by simp⟩
    · rw [if_neg hk] at h
      obtain ⟨l1, l2, hsp, hl1⟩ := ih h
      refine ⟨(k0, v0) :: l1, l2, by rw [hsp, List.cons_append], ?_⟩
      intro q hq
      rcases List.mem_cons.mp hq with hq | hq
      · rw [hq]; exact hk
      · exact hl1 q hq

theorem allEnvOkExcept_mem {w : World} {t k : String} {info : SecretsInfo}
    {p : String × SecretVals} {q : String × Val}
    (h : allEnvOkExcept w t k info = true) (hp : p ∈ info) (hq : q ∈ p.2) :
    (p.1 = t ∧ q.1 = k) ∨ envRefOk w q.2 = true := by
  simp only [allEnvOkExcept, List.all_eq_true] at h
  have := h p hp q hq
  simpa using this

theorem envEntry_of_envRefOk {w : World} {v : Val}
    (h : envRefOk w v = true) : ∃ o, envEntry w v = .ok o := by
  cases v with
  | none => exact ⟨Option.none, rfl⟩
  | str s => exact ⟨Option.none, rfl⟩
  | dict d =>
    by_cases he : Val.eqStr (dget d "type") "env" = true
    · simp only [envRefOk, isEnvRef, he, if_true] at h
      cases halk : alook d "key" with
      | none => rw [halk] at h; simp at h
      | some ek =>
        rw [halk] at h
        cases ek with
        | none => simp at h
        | dict dd => simp at h
        | str s =>
          obtain ⟨ev, hev⟩ := ahas_exists h
          refine ⟨some (Val.str ev), ?_⟩
          simp [envEntry, he, halk, hev]
    · refine ⟨Option.none, ?_⟩
      simp only [envEntry]
      rw [if_neg he]

theorem envEntry_resolves {w : World} {rd : List (String × Val)} {ek : String}
    {v : String} (hty : alook rd "type" = some (Val.str "env"))
    (hek : alook rd "key" = some (Val.str ek))
    (henv : alook w.env ek = some v) :
    envEntry w (Val.dict rd) = .ok (some (Val.str v)) := by
  have he : Val.eqStr (dget rd "type") "env" = true := by
    simp [dget, hty, Val.eqStr]
  simp [envEntry, he, hek, henv]

theorem envEntry_missing {w : World} {rd : List (String × Val)} {ek : String}
    (hty : alook rd "type" = some (Val.str "env"))
    (hek : alook rd "key" = some (Val.str ek))
    (henv : alook w.env ek = Option.none) :
    envEntry w (Val.dict rd) = .error (.invalidExperiment
      ("Secrets make reference to an environment key "
        ++ "that does not exist: " ++ ek)) := by
  have he : Val.eqStr (dget rd "type") "env" = true := by
    simp [dget, hty, Val.eqStr]
  simp [envEntry, he, hek, henv, pyStr]

theorem envEntry_nokey {w : World} {rd : List (String × Val)}
    (hty : alook rd "type" = some (Val.str "env"))
    (hnk : alook rd "key" = Option.none) :
    envEntry w (Val.dict rd) = .error (.keyError "key") := by
  have he : Val.eqStr (dget rd "type") "env" = true := by
    simp [dget, hty, Val.eqStr]
  simp [envEntry, he, hnk]

theorem envKeys_firstBad {w : World} {v0 : Val} {e : PyErr}
    {l1 l2 : List (String × Val)} {k : String}
    (hok : ∀ q ∈ l1, envRefOk w q.2 = true)
    (hbad : envEntry w v0 = .error e) (acc : SecretVals) :
    envKeys w acc (l1 ++ (k, v0) :: l2) = .error e := by
  induction l1 generalizing acc with
  | nil => simp only [List.nil_append, envKeys, hbad]
  | cons q rest ih =>
    obtain ⟨k1, v1⟩ := q
    obtain ⟨o, ho⟩ := envEntry_of_envRefOk (hok (k1, v1) (by simp))
    simp only [List.cons_append, envKeys, ho]
    cases o with
    | none => exact ih (fun q hq => hok q (List.mem_cons_of_mem _ hq)) acc
    | some v => exact ih (fun q hq => hok q (List.mem_cons_of_mem _ hq)) (aset acc k1 v)

theorem envKeys_all_ok {w : World} {keys : List (String × Val)}
    (hok : ∀ q ∈ keys, envRefOk w q.2 = true) (acc : SecretVals) :
    ∃ d, envKeys w acc keys = .ok d := by
  induction keys generalizing acc with
  | nil => exact ⟨acc, rfl⟩
  | cons q rest ih =>
    obtain ⟨k1, v1⟩ := q
    obtain ⟨o, ho⟩ := envEntry_of_envRefOk (hok (k1, v1) (by simp))
    simp only [envKeys, ho]
    cases o with
    | none => exact ih (fun q hq => hok q (List.mem_cons_of_mem _ hq)) acc
    | some v => exact ih (fun q hq => hok q (List.mem_cons_of_mem _ hq)) (aset acc k1 v)

theorem envTargets_firstBad {w : World} {e : PyErr} {pre post : SecretsInfo}
    {t : String} {keys : SecretVals}
    (hok : ∀ p ∈ pre, ∀ q ∈ p.2, envRefOk w q.2 = true)
    (hbad : envKeys w [] keys = .error e) (acc : Secrets) :
    envTargets w acc (pre ++ (t, keys) :: post) = .error e := by
  induction pre generalizing acc with
  | nil => simp only [List.nil_append, envTargets, hbad]
  | cons p rest ih =>
    obtain ⟨t1, keys1⟩ := p
    obtain ⟨d1, hd1⟩ := envKeys_all_ok
      (fun q hq => hok (t1, keys1) (by simp) q hq) ([] : SecretVals)
    simp only [List.cons_append, envTargets, hd1]
    exact ih (fun p hp => hok p (List.mem_cons_of_mem _ hp)) _

theorem load_secrets_firstBad {w : World} {info : SecretsInfo}
    (cfg : Configuration) {t k : String} {keys : SecretVals}
    {rd : List (String × Val)} {e : PyErr}
    (ht : alook info t = some keys) (hk : alook keys k = some (Val.dict rd))
    (hex : allEnvOkExcept w t k info = true)
    (hbadentry : envEntry w (Val.dict rd) = .error e) :
    load_secrets w info cfg = .error e := by
  obtain ⟨pre, post, hsp, hpre⟩ := alook_split ht
  obtain ⟨l1, l2, hksp, hl1⟩ := alook_split hk
  have hbadkeys : envKeys w [] keys = .error e := by
    rw [hksp]
    refine envKeys_firstBad ?_ hbadentry []
    intro q hq
    have hqk : q ∈ keys := by
      rw [hksp]
      exact List.mem_append_left _ hq
    have hpmem : (t, keys) ∈ info := by
      rw [hsp]
      exact List.mem_append_right _ (by simp)
    rcases allEnvOkExcept_mem hex hpmem hqk with hh | hh
    · exact absurd hh.2 (hl1 q hq)
    · exact hh
  apply load_secrets_env_error
  show envTargets w [] info = .error e
  rw [hsp]
  refine envTargets_firstBad ?_ hbadkeys []
  intro p hp q hq
  have hpmem : p ∈ info := by
    rw [hsp]
    exact List.mem_append_left _ hp
  rcases allEnvOkExcept_mem hex hpmem hq with hh | hh
  · exact absurd hh.1 (hpre p hp)
  · exact hh

/-- C10: an env-tagged entry with no `key` field makes
`load_secrets` fail with a plain `KeyError` from the Environment
resolver's dict subscript, not with the `InvalidExperiment`
configuration error used for unresolvable variables. -/
theorem C10_missing_key_field (w : World) (info : SecretsInfo)
    (cfg : Configuration) (t k : String) (keys : SecretVals)
    (rd : List (String × Val))
    (ht : alook info t = some keys) (hk : alook keys k = some (Val.dict rd))
    (hty : alook rd "type" = some (Val.str "env"))
    (hnk : alook rd "key" = Option.none)
    (hex : allEnvOkExcept w t k info = true) :
    load_secrets w info cfg = .error (.keyError "key")
    ∧ ∀ msg, load_secrets w info cfg ≠ .error (.invalidExperiment msg) := by
  have hmain := load_secrets_firstBad cfg ht hk hex (envEntry_nokey hty hnk)
  refine ⟨hmain, fun msg h => ?_⟩
  rw [hmain] at h
  simp at h

theorem C10_missing_key_field_witness :
    load_secrets wA [("t", [("s", Val.dict [("type", Val.str "env")])])] []
      = .error (.keyError "key")
    ∧ ∀ msg, load_secrets wA [("t", [("s", Val.dict [("type", Val.str "env")])])] []
      ≠ .error (.invalidExperiment msg) :=
  C10_missing_key_field wA [("t", [("s", Val.dict [("type", Val.str "env")])])]
    [] "t" "s" [("s", Val.dict [("type", Val.str "env")])]
    [("type", Val.str "env")] rfl rfl rfl rfl rfl

theorem envKeys_not_has {w : World} {keys : List (String × Val)} {k : String}
    {acc d : SecretVals} (hna : ahas keys k = false)
    (h : envKeys w acc keys = .ok d) : alook d k = alook acc k := by
  induction keys generalizing acc with
  | nil =>
    simp only [envKeys] at h
    cases h
    rfl
  | cons q rest ih =>
    obtain ⟨k0, v0⟩ := q
    simp only [ahas] at hna
    by_cases hk : k0 = k
    · simp [if_pos hk] at hna
    · rw [if_neg hk] at hna
      simp only [envKeys] at h
      cases he : envEntry w v0 with
      | error e => rw [he] at h; exact absurd h (by simp)
      | ok o =>
        rw [he] at h
        cases o with
        | none => exact ih hna h
        | some v => rw [ih hna h, alook_aset, if_neg hk]

theorem envKeys_alook {w : World} {keys : List (String × Val)} {k : String}
    {ref rv : Val} {acc d : SecretVals}
    (h : envKeys w acc keys = .ok d) (hnd : nodupKeys keys = true)
    (hk : alook keys k = some ref) (he : envEntry w ref = .ok (some rv)) :
    alook d k = some rv := by
  induction keys generalizing acc with
  | nil => simp [alook] at hk
  | cons q rest ih =>
    obtain ⟨k0, v0⟩ := q
    simp only [nodupKeys, Bool.and_eq_true, Bool.not_eq_true'] at hnd
    simp only [alook] at hk
    simp only [envKeys] at h
    by_cases hk0 : k0 = k
    · rw [if_pos hk0] at hk
      have hv := Option.some.inj hk
      subst hv
      subst hk0
      rw [he] at h
      rw [envKeys_not_has hnd.1 h, alook_aset, if_pos rfl]
    · rw [if_neg hk0] at hk
      cases hee : envEntry w v0 with
      | error e => rw [hee] at h; exact absurd h (by simp)
      | ok o =>
        rw [hee] at h
        cases o with
        | none => exact ih h hnd.2 hk
        | some v => exact ih h hnd.2 hk

theorem envTargets_not_has {w : World} {info : SecretsInfo} {t : String}
    {acc r : Secrets} (hna : ahas info t = false)
    (h : envTargets w acc info = .ok r) : alook r t = alook acc t := by
  induction info generalizing acc with
  | nil =>
    simp only [envTargets] at h
    cases h
    rfl
  | cons p rest ih =>
    obtain ⟨t0, keys0⟩ := p
    simp only [ahas] at hna
    by_cases ht : t0 = t
    · simp [if_pos ht] at hna
    · rw [if_neg ht] at hna
      simp only [envTargets] at h
      cases he : envKeys w [] keys0 with
      | error e => rw [he] at h; exact absurd h (by simp)
      | ok d =>
        rw [he] at h
        dsimp only at h
        by_cases hd : d.isEmpty = true
        · rw [if_pos hd] at h
          rw [ih hna h, alook_apop_ne _ ht]
        · rw [if_neg hd] at h
          rw [ih hna h, alook_aset, if_neg ht]

theorem envTargets_keys_ok {w : World} {info : SecretsInfo} {t : String}
    {keys : SecretVals} {acc r : Secrets}
    (h : envTargets w acc info = .ok r) (ht : alook info t = some keys) :
    ∃ d, envKeys w [] keys = .ok d := by
  induction info generalizing acc with
  | nil => simp [alook] at ht
  | cons p rest ih =>
    obtain ⟨t0, keys0⟩ := p
    simp only [alook] at ht
    simp only [envTargets] at h
    cases he : envKeys w [] keys0 with
    | error e => rw [he] at h; exact absurd h (by simp)
    | ok d =>
      rw [he] at h
      dsimp only at h
      by_cases ht0 : t0 = t
      · rw [if_pos ht0] at ht
        have hkeys := Option.some.inj ht
        subst hkeys
        exact ⟨d, he⟩
      · rw [if_neg ht0] at ht
        exact ih h ht

theorem envTargets_lookup2 {w : World} {info : SecretsInfo} {t k : String}
    {keys dt : SecretVals} {rv : Val} {acc r : Secrets}
    (h : envTargets w acc info = .ok r) (hnd : nodupKeys info = true)
    (ht : alook info t = some keys)
    (hdt : envKeys w [] keys = .ok dt) (hk : alook dt k = some rv) :
    lookup2 r t k = some rv := by
  induction info generalizing acc with
  | nil => simp [alook] at ht
  | cons p rest ih =>
    obtain ⟨t0, keys0⟩ := p
    simp only [nodupKeys, Bool.and_eq_true, Bool.not_eq_true'] at hnd
    simp only [alook] at ht
    simp only [envTargets] at h
    by_cases ht0 : t0 = t
    · rw [if_pos ht0] at ht
      have hkeys := Option.some.inj ht
      subst hkeys
      subst ht0
      rw [hdt] at h
      dsimp only at h
      have hdne : ¬(dt.isEmpty = true) := by
        cases dt with
        | nil => simp [alook] at hk
        | cons a b => simp
      rw [if_neg hdne] at h
      simp only [lookup2]
      rw [envTargets_not_has hnd.1 h, alook_aset, if_pos rfl]
      exact hk
    · rw [if_neg ht0] at ht
      cases he : envKeys w [] keys0 with
      | error e => rw [he] at h; exact absurd h (by simp)
      | ok d =>
        rw [he] at h
        dsimp only at h
        by_cases hd : d.isEmpty = true
        · rw [if_pos hd] at h
          exact ih h hnd.2 ht
        · rw [if_neg hd] at h
          exact ih h hnd.2 ht

theorem vaultKeys_not_has {w : World} {client : Option VaultClient}
    {keys : List (String × Val)} {k : String} {acc d : SecretVals}
    (hna : ahas keys k = false)
    (h : vaultKeys w client acc keys = .ok (some d)) :
    alook d k = alook acc k := by
  induction keys generalizing acc with
  | nil =>
    simp only [vaultKeys] at h
    cases h
    rfl
  | cons q rest ih =>
    obtain ⟨k0, v0⟩ := q
    simp only [ahas] at hna
    by_cases hk : k0 = k
    · simp [if_pos hk] at hna
    · rw [if_neg hk] at hna
      simp only [vaultKeys] at h
      cases he : vaultEntry w client v0 with
      | error e => rw [he] at h; exact absurd h (by simp)
      | ok o =>
        rw [he] at h
        cases o with
        | notVault => exact ih hna h
        | skip => exact ih hna h
        | abort => exact absurd h (by simp)
        | put v => rw [ih hna h, alook_aset, if_neg hk]

theorem vaultKeys_alook_none {w : World} {client : Option VaultClient}
    {keys : List (String × Val)} {k : String} {ref : Val} {acc d : SecretVals}
    (h : vaultKeys w client acc keys = .ok (some d))
    (hnd : nodupKeys keys = true) (hk : alook keys k = some ref)
    (hnv : isVaultRef ref = false) : alook d k = alook acc k := by
  induction keys generalizing acc with
  | nil => simp [alook] at hk
  | cons q rest ih =>
    obtain ⟨k0, v0⟩ := q
    simp only [nodupKeys, Bool.and_eq_true, Bool.not_eq_true'] at hnd
    simp only [alook] at hk
    simp only [vaultKeys] at h
    by_cases hk0 : k0 = k
    · rw [if_pos hk0] at hk
      have hv := Option.some.inj hk
      subst hv
      subst hk0
      rw [vaultEntry_not_vault hnv] at h
      exact vaultKeys_not_has hnd.1 h
    · rw [if_neg hk0] at hk
      cases he : vaultEntry w client v0 with
      | error e => rw [he] at h; exact absurd h (by simp)
      | ok o =>
        rw [he] at h
        cases o with
        | notVault => exact ih h hnd.2 hk
        | skip => exact ih h hnd.2 hk
        | abort => exact absurd h (by simp)
        | put v => rw [ih h hnd.2 hk, alook_aset, if_neg hk0]

theorem vaultTargets_not_has {w : World} {client : Option VaultClient}
    {info : SecretsInfo} {t : String} {acc r : Secrets}
    (hna : ahas info t = false)
    (h : vaultTargets w client acc info = .ok (some r)) :
    alook r t = alook acc t := by
  induction info generalizing acc with
  | nil =>
    simp only [vaultTargets] at h
    cases h
    rfl
  | cons p rest ih =>
    obtain ⟨t0, keys0⟩ := p
    simp only [ahas] at hna
    by_cases ht : t0 = t
    · simp [if_pos ht] at hna
    · rw [if_neg ht] at hna
      simp only [vaultTargets] at h
      cases he : vaultKeys w client [] keys0 with
      | error e => rw [he] at h; exact absurd h (by simp)
      | ok o =>
        rw [he] at h
        cases o with
        | none => exact absurd h (by simp)
        | some d =>
          dsimp only at h
          by_cases hd : d.isEmpty = true
          · rw [if_pos hd] at h
            rw [ih hna h, alook_apop_ne _ ht]
          · rw [if_neg hd] at h
            rw [ih hna h, alook_aset, if_neg ht]

theorem vaultTargets_lookup2_none {w : World} {client : Option VaultClient}
    {info : SecretsInfo} {t k : String} {keys : SecretVals} {ref : Val}
    {acc r : Secrets}
    (h : vaultTargets w client acc info = .ok (some r))
    (hnd : nodupKeys info = true) (hga : nodupKeys acc = true)
    (ht : alook info t = some keys) (hndk : nodupKeys keys = true)
    (hk : alook keys k = some ref) (hnv : isVaultRef ref = false) :
    lookup2 r t k = Option.none := by
  induction info generalizing acc with
  | nil => simp [alook] at ht
  | cons p rest ih =>
    obtain ⟨t0, keys0⟩ := p
    simp only [nodupKeys, Bool.and_eq_true, Bool.not_eq_true'] at hnd
    simp only [alook] at ht
    simp only [vaultTargets] at h
    by_cases ht0 : t0 = t
    · rw [if_pos ht0] at ht
      have hkeys := Option.some.inj ht
      subst hkeys
      subst ht0
      cases he : vaultKeys w client [] keys0 with
      | error e => rw [he] at h; exact absurd h (by simp)
      | ok o =>
        rw [he] at h
        cases o with
        | none => exact absurd h (by simp)
        | some d =>
          dsimp only at h
          have hdk : alook d k = Option.none := by
            rw [vaultKeys_alook_none he hndk hk hnv]
            rfl
          by_cases hd : d.isEmpty = true
          · rw [if_pos hd] at h
            simp only [lookup2]
            rw [vaultTargets_not_has hnd.1 h, alook_apop_self hga]
          · rw [if_neg hd] at h
            simp only [lookup2]
            rw [vaultTargets_not_has hnd.1 h, alook_aset, if_pos rfl]
            exact hdk
    · rw [if_neg ht0] at ht
      cases he : vaultKeys w client [] keys0 with
      | error e => rw [he] at h; exact absurd h (by simp)
      | ok o =>
        rw [he] at h
        cases o with
        | none => exact absurd h (by simp)
        | some d =>
          dsimp only at h
          by_cases hd : d.isEmpty = true
          · rw [if_pos hd] at h
            exact ih h hnd.2 (nodupKeys_apop _ hga) ht
          · rw [if_neg hd] at h
            exact ih h hnd.2 (nodupKeys_aset _ _ hga) ht

theorem load_secrets_from_vault_lookup_none {w : World} {info : SecretsInfo}
    {cfg : Configuration} {r : Secrets} {t k : String} {keys : SecretVals}
    {ref : Val}
    (h : load_secrets_from_vault w info cfg = .ok r)
    (hnd : nodupKeys info = true) (ht : alook info t = some keys)
    (hndk : nodupKeys keys = true) (hk : alook keys k = some ref)
    (hnv : isVaultRef ref = false) : lookup2 r t k = Option.none := by
  simp only [load_secrets_from_vault] at h
  cases hc : create_vault_client w cfg with
  | error e => rw [hc] at h; exact absurd h (by simp)
  | ok client =>
    rw [hc] at h
    dsimp only at h
    cases hv : vaultTargets w client [] info with
    | error e => rw [hv] at h; exact absurd h (by simp)
    | ok o =>
      rw [hv] at h
      cases o with
      | none => cases h; rfl
      | some s =>
        cases h
        exact vaultTargets_lookup2_none hv hnd rfl ht hndk hk hnv

/-- C2: an env-tagged entry naming a present environment variable
resolves, through the whole `load_secrets` call, to that variable's
value; naming an absent variable makes the whole call raise
`InvalidExperiment` with a message naming the variable, with no partial
result returned. -/
theorem C2_env_resolution (w : World) (info : SecretsInfo)
    (cfg : Configuration) (t k ek : String) (keys : SecretVals)
    (rd : List (String × Val))
    (hg : goodSecrets info = true)
    (ht : alook info t = some keys) (hk : alook keys k = some (Val.dict rd))
    (hty : alook rd "type" = some (Val.str "env"))
    (hek : alook rd "key" = some (Val.str ek)) :
    (∀ v s, alook w.env ek = some v → load_secrets w info cfg = .ok s →
        lookup2 s t k = some (Val.str v))
    ∧ (alook w.env ek = Option.none → allEnvOkExcept w t k info = true →
        load_secrets w info cfg = .error (.invalidExperiment
          ("Secrets make reference to an environment key "
            ++ "that does not exist: " ++ ek))) := by
  obtain ⟨hnd, hall⟩ := goodSecrets_def.mp hg
  have hndk : nodupKeys keys = true := hall (t, keys) (alook_mem ht)
  constructor
  · intro v s henv hs
    obtain ⟨r2, r3, h2, h3, hse⟩ := load_secrets_ok_split hs
    have hee : envEntry w (Val.dict rd) = .ok (some (Val.str v)) :=
      envEntry_resolves hty hek henv
    obtain ⟨dt, hdt⟩ := envTargets_keys_ok h2 ht
    have hdk : alook dt k = some (Val.str v) := envKeys_alook hdt hndk hk hee
    have hr2 : lookup2 r2 t k = some (Val.str v) :=
      envTargets_lookup2 h2 hnd ht hdt hdk
    have hnv : isVaultRef (Val.dict rd) = false := by
      simp [isVaultRef, dget, hty, Val.eqStr]
    have hr3 : lookup2 r3 t k = Option.none :=
      load_secrets_from_vault_lookup_none h3 hnd ht hndk hk hnv
    rw [hse]
    rw [mergeOne_lookup2 _ t k (load_secrets_from_vault_good h3), hr3]
    dsimp only
    rw [mergeOne_lookup2 _ t k (load_secrets_from_env_good h2), hr2]
  · intro henv hex
    exact load_secrets_firstBad cfg ht hk hex (envEntry_missing hty hek henv)

theorem C2_env_resolution_witness :
    lookup2 [("t2", [("s2", Val.str "hello")])] "t2" "s2"
      = some (Val.str "hello")
    ∧ load_secrets wA
        [("t2", [("s2", Val.dict [("type", Val.str "env"),
                                  ("key", Val.str "NOPE")])])] [] =
      .error (.invalidExperiment
        ("Secrets make reference to an environment key "
          ++ "that does not exist: " ++ "NOPE")) :=
  ⟨(C2_env_resolution wA
      [("t2", [("s2", Val.dict [("type", Val.str "env"),
                                ("key", Val.str "MYVAR")])])]
      [] "t2" "s2" "MYVAR"
      [("s2", Val.dict [("type", Val.str "env"), ("key", Val.str "MYVAR")])]
      [("type", Val.str "env"), ("key", Val.str "MYVAR")]
      rfl rfl rfl rfl rfl).1 "hello" [("t2", [("s2", Val.str "hello")])]
      rfl rfl,
   (C2_env_resolution wA
      [("t2", [("s2", Val.dict [("type", Val.str "env"),
                                ("key", Val.str "NOPE")])])]
      [] "t2" "s2" "NOPE"
      [("s2", Val.dict [("type", Val.str "env"), ("key", Val.str "NOPE")])]
      [("type", Val.str "env"), ("key", Val.str "NOPE")]
      rfl rfl rfl rfl rfl).2 rfl rfl⟩

end ChaosSecret
